import Mathlib

/-!
# Text layout and content emission of `pdf.cpp`

A shallow embedding of the text core of `src/src/pdf.cpp`
(`GetLanguage`, `Character`, `Text::CalcLayout`, `Text::GetContent` and the
run-building operations of `Text`), followed by theorems about it.

Modelling conventions.

* `float`/`double` values are exact rationals (`ℚ`); rounding is not modelled.
* `static_cast<int>(v)` is truncation toward zero (`truncToInt`). The program
  applies it to a binary32 sum and the cast is defined only within the range
  of the 32-bit `int`; the theorems whose conclusion is the numeric outcome of
  the overflow test assume `exactAdvance`, under which the sum is exact and
  the cast stays in range. The other theorems use the test only to relate
  `CalcLayout` and `GetContent`, which evaluate the same expression.
* `std::vector<Character>` is a `List Character`; an access outside the vector
  (`m_text.back()` on an empty vector, `m_text[i - 1]` with `i = 0`) makes the
  modelled function return `none`.
* A serialized command (one `fmt::format` of the `BT ... ET` template) is kept
  as the record of its operands (`Command`); a page string is the list of the
  commands appended to it.
* `CharWidthPool` (a `std::map<char, float>` filled from the host window
  system) is a parameter `pool`; a missing key reads as `0`, as `operator[]`
  does.
* Members the spacing constructor of `Character` leaves uninitialised
  (`fontSize`, `charItvlRatio`) are passed in explicitly as `Uninit`.
-/

namespace pdf

/-! ## Data model -/

/-- Script class of a code point (`enum class LANGUAGE`). -/
inductive LANGUAGE where
  | ENGLISH
  | CHINESE
  | ESCAPE_CHAR
  | SPACING
  deriving DecidableEq, Repr

/-- Two floats (`struct Vector2`), both zero by default. -/
structure Vector2 where
  x : ℚ := 0
  y : ℚ := 0
  deriving DecidableEq

/-- Alignment mode (`enum class ALIGNMENT`). -/
inductive ALIGNMENT where
  | DEFAULT
  | LEFT
  | CENTER
  | RIGHT
  deriving DecidableEq, Repr

/-- Canvas width (`const size_t PDF_WIDTH`). -/
def PDF_WIDTH : ℕ := 707

/-- Canvas height (`const size_t PDF_HEIGHT`). -/
def PDF_HEIGHT : ℕ := 1000

/-- Outer padding (`const size_t PDF_PADDING`). -/
def PDF_PADDING : ℕ := 50

/-- Truncation toward zero, the value of `static_cast<int>` on a float whose
truncation fits the 32-bit `int` (outside that range the cast of the program
is undefined; see `exactFloat`). -/
def truncToInt (q : ℚ) : ℤ := if 0 ≤ q then ⌊q⌋ else ⌈q⌉

/-- The width table: the measured width stored under a `char` key, if any. -/
abbrev CharWidthPool := ℕ → Option ℚ

/-- Reading `CharWidthPool[key]`: a missing key yields `0`. -/
def CharWidthPool.at (pool : CharWidthPool) (key : ℕ) : ℚ := (pool key).getD 0

/-- The lambda `inRange` of `GetLanguage`. -/
def inRange (uc rBeg rEnd : ℕ) : Bool :=
  if rBeg > rEnd then decide (uc ≥ rEnd ∧ uc ≤ rBeg) else decide (uc ≥ rBeg ∧ uc ≤ rEnd)

/-- Classification of a code point (`LANGUAGE GetLanguage(uint32_t unicode)`). -/
def GetLanguage (unicode : ℕ) : LANGUAGE :=
  if inRange unicode 0x4E00 0x9FA5 || inRange unicode 0xFF01 0xFF1B ||
      inRange unicode 0x3001 0x300F || inRange unicode 0x2018 0x201D then
    LANGUAGE.CHINESE
  else if unicode = 10 ∨ unicode = 13 ∨ unicode = 9 then
    LANGUAGE.ESCAPE_CHAR
  else if unicode = 32 then
    LANGUAGE.SPACING
  else
    LANGUAGE.ENGLISH

/-- The payload of a unit (`std::variant<char, std::string>`). -/
inductive Content where
  | chr (c : Char)
  | str (s : List Char)
  deriving DecidableEq

/-- The conversion `(char)character` of a `wchar_t`: its low byte. -/
def toChar (character : ℕ) : Char := Char.ofNat (character % 256)

/-- One glyph unit (`class Character`). -/
structure Character where
  lang : LANGUAGE
  charLen : ℚ
  length : ℚ
  fontSize : ℚ
  charItvlRatio : ℚ
  position : Vector2 := {}
  bold : Bool := false
  content : Content := Content.chr (Char.ofNat 0)
  deriving DecidableEq

/-- The values found in the members that the spacing constructor of
`Character` does not initialise. -/
structure Uninit where
  fontSize : ℚ
  charItvlRatio : ℚ

/-- The local `interval` of the regular constructor and of `SetCharInterval`. -/
def interval (charItvlRatio fontSize : ℚ) : ℚ :=
  if charItvlRatio > 1 then (charItvlRatio - 1) * fontSize else 0

/-- The regular constructor
`Character(character, lang, fontSize, charItvlRatio, bold)`. -/
def Character.ctor (pool : CharWidthPool) (character : ℕ) (lang : LANGUAGE)
    (fontSize charItvlRatio : ℚ) (bold : Bool) : Character :=
  match lang with
  | LANGUAGE.CHINESE =>
    { lang := lang, fontSize := fontSize, charItvlRatio := charItvlRatio, bold := bold,
      charLen := fontSize,
      length := fontSize + interval charItvlRatio fontSize,
      content := Content.str (Nat.toDigits 16 character) }
  | LANGUAGE.ENGLISH =>
    { lang := lang, fontSize := fontSize, charItvlRatio := charItvlRatio, bold := bold,
      charLen := pool.at (character % 256) * (fontSize / 16) * (105 / 100),
      length := pool.at (character % 256) * (fontSize / 16) * (105 / 100)
        + interval charItvlRatio fontSize,
      content := Content.chr (toChar character) }
  | LANGUAGE.ESCAPE_CHAR =>
    if character = 9 then
      { lang := lang, fontSize := 0, charItvlRatio := charItvlRatio, bold := bold,
        charLen := 2 * fontSize, length := 2 * fontSize,
        content := Content.chr (toChar character) }
    else
      { lang := lang, fontSize := 0, charItvlRatio := charItvlRatio, bold := bold,
        charLen := 0, length := 0,
        content := Content.chr (toChar character) }
  | LANGUAGE.SPACING =>
    { lang := lang, fontSize := fontSize, charItvlRatio := charItvlRatio, bold := bold,
      charLen := (3 / 10) * fontSize, length := (3 / 10) * fontSize }

/-- The spacing constructor `Character(lang, spacing)`; `fontSize` and
`charItvlRatio` are not initialised by it. -/
def Character.ctorSpacing (lang : LANGUAGE) (spacing : ℚ) (u : Uninit) : Character :=
  { lang := lang, charLen := spacing, length := spacing,
    fontSize := u.fontSize, charItvlRatio := u.charItvlRatio }

/-- A text run (`class Text`, with the `m_startPosition` of its base). -/
structure Text where
  m_startPosition : Vector2 := {}
  m_text : List Character := []
  m_fontSize : ℚ
  m_lineCount : ℕ := 0
  m_range : Vector2 := {}
  m_alignment : ALIGNMENT := ALIGNMENT.DEFAULT
  m_charItvlRatio : ℚ
  m_lineItvl : ℚ
  m_autoNextPage : Bool := false

/-- The range every constructor stores: `{PDF_PADDING, PDF_WIDTH - PDF_PADDING}`. -/
def defaultRange : Vector2 := ⟨(PDF_PADDING : ℕ), ((PDF_WIDTH - PDF_PADDING : ℕ) : ℚ)⟩

/-- The units appended for a source text with the run's current style
(the loop shared by the constructors and `Append`). -/
def buildUnits (pool : CharWidthPool) (text : List ℕ) (fontSize charItvlRatio : ℚ)
    (bold : Bool) : List Character :=
  text.map fun ch => Character.ctor pool ch (GetLanguage ch) fontSize charItvlRatio bold

/-- The default constructor `Text()`. -/
def Text.default : Text :=
  { m_fontSize := 12, m_range := defaultRange, m_charItvlRatio := 1, m_lineItvl := 12 / 10 }

/-- The constructor `Text(text, fontSize, charNumIndent, bold)`. -/
def Text.ofIndent (pool : CharWidthPool) (text : List ℕ) (fontSize charNumIndent : ℚ)
    (bold : Bool) (u : Uninit) : Text :=
  { m_fontSize := fontSize, m_range := defaultRange, m_charItvlRatio := 1,
    m_lineItvl := 12 / 10,
    m_text := Character.ctorSpacing LANGUAGE.SPACING (charNumIndent * fontSize) u
      :: buildUnits pool text fontSize 1 bold }

/-- The constructor `Text(text, fontSize, pos, bold)`. -/
def Text.ofPos (pool : CharWidthPool) (text : List ℕ) (fontSize : ℚ) (pos : Vector2)
    (bold : Bool) : Text :=
  { m_startPosition := ⟨pos.x, (PDF_HEIGHT : ℕ) - pos.y⟩,
    m_fontSize := fontSize, m_range := defaultRange, m_charItvlRatio := 1,
    m_lineItvl := 12 / 10,
    m_text := buildUnits pool text fontSize 1 bold }

/-- The constructor `Text(text, fontSize, depth, alignment, bold)`. -/
def Text.ofDepth (pool : CharWidthPool) (text : List ℕ) (fontSize depth : ℚ)
    (alignment : ALIGNMENT) (bold : Bool) : Text :=
  { m_startPosition := ⟨0, (PDF_HEIGHT : ℕ) - depth⟩,
    m_fontSize := fontSize, m_range := defaultRange, m_charItvlRatio := 1,
    m_lineItvl := 12 / 10, m_alignment := alignment,
    m_text := buildUnits pool text fontSize 1 bold }

/-! ## Run-building operations -/

/-- `Text::Append(text, bold)`. -/
def Text.Append (pool : CharWidthPool) (t : Text) (text : List ℕ) (bold : Bool) : Text :=
  { t with m_text := t.m_text ++ buildUnits pool text t.m_fontSize t.m_charItvlRatio bold }

/-- `Text::SetFontSize(fontSize)`. -/
def Text.SetFontSize (t : Text) (fontSize : ℚ) : Text :=
  { t with m_fontSize := fontSize,
           m_text := t.m_text.map fun ch => { ch with fontSize := fontSize } }

/-- `Text::Space(spacing)`. -/
def Text.Space (t : Text) (spacing : ℚ) (u : Uninit) : Text :=
  { t with m_text := t.m_text ++ [Character.ctorSpacing LANGUAGE.SPACING spacing u] }

/-- `Text::SetIndent(charNum)`. -/
def Text.SetIndent (t : Text) (charNum : ℚ) (u : Uninit) : Text :=
  { t with m_text := t.m_text ++
      [Character.ctorSpacing LANGUAGE.SPACING (charNum * t.m_fontSize) u] }

/-- `Text::NextLine()`; the unit does not depend on the width table. -/
def Text.NextLine (t : Text) : Text :=
  { t with m_text := t.m_text ++
      [Character.ctor (fun _ => none) 10 LANGUAGE.ESCAPE_CHAR 0 0 false] }

/-- `Text::SetAutoNextPage(flag)`. -/
def Text.SetAutoNextPage (t : Text) (flag : Bool) : Text :=
  { t with m_autoNextPage := flag }

/-- `Text::SetAlignment(alignment, range)`. -/
def Text.SetAlignment (t : Text) (alignment : ALIGNMENT) (range : Vector2) : Text :=
  { t with m_alignment := alignment, m_range := range }

/-- `Text::SetCharInterval(charItvl)`. -/
def Text.SetCharInterval (t : Text) (charItvl : ℚ) : Text :=
  { t with m_charItvlRatio := charItvl,
           m_text := t.m_text.map fun ch =>
             { ch with charItvlRatio := charItvl,
                       length := ch.charLen + interval charItvl ch.fontSize } }

/-- `Text::SetDepth(depth)`. -/
def Text.SetDepth (t : Text) (depth : ℚ) : Text :=
  { t with m_startPosition := ⟨t.m_startPosition.x, (PDF_HEIGHT : ℕ) - depth⟩ }

/-- `Text::SetPosition(position)`; `FLOAT_EQUAL(y, 0.0)` is `abs(0.0 - y) < 0.0001`. -/
def Text.SetPosition (t : Text) (position : Vector2) : Text :=
  { t with m_startPosition :=
      ⟨position.x,
        (PDF_HEIGHT : ℕ) -
          (if |0 - position.y| < 1 / 10000 then ((PDF_PADDING : ℕ) : ℚ) else position.y)⟩ }

/-- `Text::SetAlignment(depth, alignment, range)`. -/
def Text.SetAlignmentAt (t : Text) (depth : ℚ) (alignment : ALIGNMENT) (range : Vector2) :
    Text :=
  { t with m_alignment := alignment, m_range := range,
           m_startPosition := ⟨t.m_startPosition.x, (PDF_HEIGHT : ℕ) - depth⟩ }

/-- `Text::SetLineInterval(lineItvl)`. -/
def Text.SetLineInterval (t : Text) (lineItvl : ℚ) : Text :=
  { t with m_lineItvl := lineItvl }

/-- `Text::GetLength()`: the sum of the total advances. -/
def Text.GetLength (t : Text) : ℚ :=
  t.m_text.foldl (fun length ch => length + ch.length) 0

/-! ## `Text::CalcLayout` -/

/-- The layout cursor: `curPos` together with the line counter `m_lineCount`. -/
structure Cursor where
  x : ℚ
  y : ℚ
  lineCount : ℕ
  deriving DecidableEq

/-- The test `(ch.lang == ESCAPE_CHAR) && (std::get<char>(ch.content) == 10)`.
Both constructors store a `char` in an `ESCAPE_CHAR` unit, so `std::get<char>`
does not throw on a constructed unit; a string payload reads as no newline. -/
def isEOL (ch : Character) : Bool :=
  ch.lang == LANGUAGE.ESCAPE_CHAR && ch.content == Content.chr (Char.ofNat 10)

/-- The test `static_cast<int>(x + ch.charLen) > m_range.y`. -/
def lineOverflow (t : Text) (x : ℚ) (ch : Character) : Bool :=
  decide (((truncToInt (x + ch.charLen) : ℤ) : ℚ) > t.m_range.y)

/-- The cursor after the line-break block of `textHandling`
(`m_lineCount++`, one line down, back to the left bound, and back to the top
of the page when `m_autoNextPage` is set and the line falls below the padding). -/
def nextLine (t : Text) (cur : Cursor) : Cursor :=
  if t.m_autoNextPage && decide (cur.y - t.m_fontSize * t.m_lineItvl < (PDF_PADDING : ℕ)) then
    ⟨t.m_range.x, ((PDF_HEIGHT - PDF_PADDING : ℕ) : ℚ), cur.lineCount + 1⟩
  else
    ⟨t.m_range.x, cur.y - t.m_fontSize * t.m_lineItvl, cur.lineCount + 1⟩

/-- The cursor at which a unit is placed: after a line break when the unit
overflows or is a newline, unchanged otherwise. -/
def placeCursor (t : Text) (cur : Cursor) (ch : Character) : Cursor :=
  if lineOverflow t cur.x ch || isEOL ch then nextLine t cur else cur

/-- One iteration of the loop of `textHandling`: the cursor after the unit and
the unit with its position assigned. -/
def layoutUnit (t : Text) (cur : Cursor) (ch : Character) : Cursor × Character :=
  let cur1 := placeCursor t cur ch
  (⟨cur1.x + ch.length, cur1.y, cur1.lineCount⟩, { ch with position := ⟨cur1.x, cur1.y⟩ })

/-- The loop `for (auto& ch : m_text)` of `textHandling`. -/
def layoutLoop (t : Text) : Cursor → List Character → Cursor × List Character
  | cur, [] => (cur, [])
  | cur, ch :: rest =>
    let r := layoutLoop t (layoutUnit t cur ch).1 rest
    (r.1, (layoutUnit t cur ch).2 :: r.2)

/-- The cursor `textHandling` starts from: `{m_range.x, m_startPosition.y}`. -/
def startCursor (t : Text) : Cursor := ⟨t.m_range.x, t.m_startPosition.y, t.m_lineCount⟩

/-- The lambda `textHandling` of `CalcLayout`. -/
def textHandling (t : Text) : Text :=
  { t with m_text := (layoutLoop t (startCursor t) t.m_text).2,
           m_lineCount := (layoutLoop t (startCursor t) t.m_text).1.lineCount }

/-- The column range the `switch` of `CalcLayout` stores in `m_range` before
it runs `textHandling`; `none` when `m_text.back()` is taken of an empty run. -/
def alignRange (t : Text) : Option Vector2 :=
  match t.m_alignment with
  | ALIGNMENT.DEFAULT => some ⟨t.m_startPosition.x, ((PDF_WIDTH - PDF_PADDING : ℕ) : ℚ)⟩
  | ALIGNMENT.LEFT => some ⟨(PDF_PADDING : ℕ), ((PDF_WIDTH - PDF_PADDING : ℕ) : ℚ)⟩
  | ALIGNMENT.CENTER =>
    t.m_text.getLast?.map fun back =>
      ⟨(t.m_range.x + t.m_range.y) / 2 - t.GetLength / 2 + (back.length - back.charLen) / 2,
       ((PDF_WIDTH - PDF_PADDING : ℕ) : ℚ)⟩
  | ALIGNMENT.RIGHT =>
    t.m_text.getLast?.map fun back =>
      ⟨t.m_range.y - t.GetLength + (back.length - back.charLen), t.m_range.y⟩

/-- The run as `CalcLayout` hands it to `textHandling`: line counter reset
(`m_lineCount = 0`) and the column range of the alignment mode stored. -/
def Text.withColumn (t : Text) (r : Vector2) : Text :=
  { t with m_lineCount := 0, m_range := r }

/-- `Text::CalcLayout()`: reset the line counter, store the column range of
the alignment mode, run `textHandling`. -/
def Text.CalcLayout (t : Text) : Option Text :=
  (alignRange t).map fun r => textHandling (t.withColumn r)

/-! ## `Text::GetContent` -/

/-- The operands of one serialized `BT ... ET` command: font identifier, font
size, the two `Tm` coordinates, the interval operand and the delimited payload. -/
structure Command where
  font : String
  fontSize : ℚ
  x : ℚ
  y : ℚ
  charItvl : ℚ
  content : List Char
  deriving DecidableEq

/-- The effect of `pos = buffer.find(c); if (pos != npos) buffer.insert(pos, "\\")`:
a backslash before the first occurrence of `c`. -/
def insertBeforeFirst (c : Char) : List Char → List Char
  | [] => []
  | x :: xs => if x = c then '\\' :: x :: xs else x :: insertBeforeFirst c xs

/-- The lambda `hanndleSpecialChar`, as a function of the buffer. -/
def hanndleSpecialChar (buffer : List Char) : List Char :=
  insertBeforeFirst ')' (insertBeforeFirst '(' buffer)

/-- The state of `GetContent`: its control variables, the pending buffer, the
finished page strings (`textVec` without its last element) and the page string
`ret` points to (the last element of `textVec`). -/
structure EmitState where
  preLang : LANGUAGE
  prePos : Vector2
  preBold : Bool
  xInc : ℚ
  buffer : List Char
  done : List (List Command)
  page : List Command

/-- The commands one flush appends to the page: five for a bold span (the
canonical position and four displaced ones), one otherwise. -/
def drawContent (font : String) (bufferFontSize charItvl : ℚ) (prePos : Vector2)
    (preBold : Bool) (content : List Char) : List Command :=
  if preBold then
    let offset : ℚ := (2 / 10) * (bufferFontSize / 16)
    [ ⟨font, bufferFontSize, prePos.x, prePos.y, charItvl, content⟩,
      ⟨font, bufferFontSize, prePos.x + offset, prePos.y, charItvl, content⟩,
      ⟨font, bufferFontSize, prePos.x - offset, prePos.y, charItvl, content⟩,
      ⟨font, bufferFontSize, prePos.x, prePos.y + offset, charItvl, content⟩,
      ⟨font, bufferFontSize, prePos.x, prePos.y - offset, charItvl, content⟩ ]
  else
    [ ⟨font, bufferFontSize, prePos.x, prePos.y, charItvl, content⟩ ]

/-- The lambda `writeToFile(i)`; `prev` is `m_text[i - 1]` (`none` when
`i = 0`) and `ch` is `m_text[i]`. -/
def writeToFile (t : Text) (prev : Option Character) (ch : Character) (σ : EmitState) :
    Option EmitState :=
  let buffer := hanndleSpecialChar σ.buffer
  if σ.preLang = LANGUAGE.SPACING then
    some { σ with buffer := buffer, preLang := ch.lang, prePos := ch.position }
  else
    let writable := σ.preLang = LANGUAGE.CHINESE ∨ σ.preLang = LANGUAGE.ENGLISH
    let font := if σ.preLang = LANGUAGE.CHINESE then "Song" else "TmRm"
    let content : List Char :=
      if σ.preLang = LANGUAGE.CHINESE then '<' :: buffer ++ ['>']
      else if σ.preLang = LANGUAGE.ENGLISH then '(' :: buffer ++ [')']
      else []
    prev.map fun pv =>
      let bufferFontSize := pv.fontSize
      let charItvl := (t.m_charItvlRatio - 1) * bufferFontSize
      { σ with
        page := if writable then
            σ.page ++ drawContent font bufferFontSize charItvl σ.prePos σ.preBold content
          else σ.page,
        preBold := ch.bold, preLang := ch.lang, prePos := ch.position, buffer := [] }

/-- The lambda `BufferAppend`: a CJK unit appends its hex string, a Latin unit
its character. The constructors store a string in every `CHINESE` unit and a
`char` in every `ENGLISH` unit, so neither `std::get` throws on a constructed
unit; the other alternative appends nothing here. -/
def BufferAppend (ch : Character) (σ : EmitState) : EmitState :=
  match ch.lang, ch.content with
  | LANGUAGE.CHINESE, Content.str s => { σ with buffer := σ.buffer ++ s }
  | LANGUAGE.ENGLISH, Content.chr c => { σ with buffer := σ.buffer ++ [c] }
  | _, _ => σ

/-- The page split of the wrap branch:
`if (m_autoNextPage && (m_text[i].position.y > m_text[i - 1].position.y))`
starts a new page string. -/
def pageSplit (t : Text) (prev : Option Character) (ch : Character) (σ : EmitState) :
    Option EmitState :=
  if t.m_autoNextPage then
    prev.map fun pv =>
      if ch.position.y > pv.position.y then
        { σ with done := σ.done ++ [σ.page], page := [] }
      else σ
  else some σ

/-- One iteration of the main loop of `GetContent`, at unit `ch = m_text[i]`
with `prev = m_text[i - 1]` (`none` when `i = 0`); `isLast` is the test
`i == m_text.size() - 1`. -/
def emitUnit (t : Text) (prev : Option Character) (ch : Character) (isLast : Bool)
    (σ : EmitState) : Option EmitState :=
  if lineOverflow t σ.xInc ch || isEOL ch then
    (writeToFile t prev ch σ).bind fun σ1 =>
    (pageSplit t prev ch σ1).bind fun σ2 =>
    let σ3 := { BufferAppend ch σ2 with xInc := t.m_range.x + ch.length }
    if isLast then writeToFile t prev ch σ3 else some σ3
  else
    (if σ.preBold ≠ ch.bold then writeToFile t prev ch σ else some σ).bind fun σ1 =>
    (if σ1.preLang ≠ ch.lang then writeToFile t prev ch σ1 else some σ1).bind fun σ2 =>
    let σ3 := BufferAppend ch σ2
    (if isLast = true ∧ σ3.buffer ≠ [] then writeToFile t prev ch σ3 else some σ3).map
      fun σ4 => { σ4 with xInc := σ4.xInc + ch.length }

/-- The main loop of `GetContent` from unit `i` on: `prev` is `m_text[i - 1]`
(`none` when `i = 0`), the list holds `m_text[i]`, `m_text[i + 1]`, ... -/
def emitLoop (t : Text) : Option Character → List Character → EmitState → Option EmitState
  | _, [], σ => some σ
  | prev, ch :: rest, σ =>
    (emitUnit t prev ch rest.isEmpty σ).bind fun σ1 => emitLoop t (some ch) rest σ1

/-- The state `GetContent` enters its main loop with: the control variables
taken from `m_text[0]`, `xInc = m_range.x`, an empty buffer and one empty page
string. -/
def emitStart (t : Text) (ch0 : Character) : EmitState :=
  { preLang := ch0.lang, prePos := ch0.position, preBold := ch0.bold,
    xInc := t.m_range.x, buffer := [], done := [], page := [] }

/-- `Text::GetContent()`: the page strings, each as the list of its commands. -/
def Text.GetContent (t : Text) : Option (List (List Command)) :=
  match t.m_text with
  | [] => some []
  | ch0 :: _ =>
    (emitLoop t none t.m_text (emitStart t ch0)).map fun σ => σ.done ++ [σ.page]

/-- The state of `GetContent` after the first `k` iterations of its main loop
(the loop of `emitLoop`, stopped after `k` units). -/
def emitPrefix (t : Text) :
    ℕ → Option Character → List Character → EmitState → Option EmitState
  | 0, _, _, σ => some σ
  | _ + 1, _, [], σ => some σ
  | k + 1, prev, ch :: rest, σ =>
    (emitUnit t prev ch rest.isEmpty σ).bind fun σ1 => emitPrefix t k (some ch) rest σ1

/-- A width table for the examples: every measured character (33 to 125) is
8 wide. -/
def samplePool : CharWidthPool := fun key => if 33 ≤ key ∧ key < 126 then some 8 else none

/-! ## Auxiliary definitions used by the statements -/

/-- The four CJK ranges of the classification. -/
def inCJKRanges (u : ℕ) : Prop :=
  (0x4E00 ≤ u ∧ u ≤ 0x9FA5) ∨ (0xFF01 ≤ u ∧ u ≤ 0xFF1B) ∨
  (0x3001 ≤ u ∧ u ≤ 0x300F) ∨ (0x2018 ≤ u ∧ u ≤ 0x201D)

instance (u : ℕ) : Decidable (inCJKRanges u) := by unfold inCJKRanges; infer_instance

/-- The cursor `textHandling` holds when it reaches the unit that follows the
units `pre` of the run. -/
def cursorBefore (t : Text) (pre : List Character) : Cursor :=
  (layoutLoop t (startCursor t) pre).1

/-- A run of two spacing units, 600 and 7.5 wide, left aligned. -/
def twoSpaces : Text :=
  ((Text.default.Space 600 ⟨0, 0⟩).Space (15 / 2) ⟨0, 0⟩).SetAlignment ALIGNMENT.LEFT defaultRange

/-- The spacing unit of width 600 of `twoSpaces`. -/
def space600 : Character := Character.ctorSpacing LANGUAGE.SPACING 600 ⟨0, 0⟩

/-- The spacing unit of width 7.5 of `twoSpaces`. -/
def space7h : Character := Character.ctorSpacing LANGUAGE.SPACING (15 / 2) ⟨0, 0⟩

/-- The source text `(a)(b)`. -/
def parenText : List ℕ := [40, 97, 41, 40, 98, 41]

/-- The source text `ab`. -/
def abText : List ℕ := [97, 98]

/-- A call of one of the constructors of `Text`. -/
inductive Ctor where
  | plain
  | indent (text : List ℕ) (fontSize charNumIndent : ℚ) (bold : Bool) (u : Uninit)
  | pos (text : List ℕ) (fontSize : ℚ) (pos : Vector2) (bold : Bool)
  | depth (text : List ℕ) (fontSize depth : ℚ) (alignment : ALIGNMENT) (bold : Bool)

/-- A call of one of the operations of `Text` that build or configure a run. -/
inductive BuildOp where
  | Append (text : List ℕ) (bold : Bool)
  | Space (spacing : ℚ) (u : Uninit)
  | SetIndent (charNum : ℚ) (u : Uninit)
  | NextLine
  | SetFontSize (fontSize : ℚ)
  | SetCharInterval (charItvl : ℚ)
  | SetAutoNextPage (flag : Bool)
  | SetDepth (depth : ℚ)
  | SetPosition (position : Vector2)
  | SetAlignment (alignment : ALIGNMENT) (range : Vector2)
  | SetAlignmentAt (depth : ℚ) (alignment : ALIGNMENT) (range : Vector2)
  | SetLineInterval (lineItvl : ℚ)

/-- The run a constructor call builds. -/
def Ctor.run (pool : CharWidthPool) : Ctor → Text
  | Ctor.plain => Text.default
  | Ctor.indent text fontSize charNumIndent bold u =>
    Text.ofIndent pool text fontSize charNumIndent bold u
  | Ctor.pos text fontSize p bold => Text.ofPos pool text fontSize p bold
  | Ctor.depth text fontSize d alignment bold =>
    Text.ofDepth pool text fontSize d alignment bold

/-- The run after one run-building call. -/
def BuildOp.apply (pool : CharWidthPool) (t : Text) : BuildOp → Text
  | BuildOp.Append text bold => t.Append pool text bold
  | BuildOp.Space spacing u => t.Space spacing u
  | BuildOp.SetIndent charNum u => t.SetIndent charNum u
  | BuildOp.NextLine => t.NextLine
  | BuildOp.SetFontSize fontSize => t.SetFontSize fontSize
  | BuildOp.SetCharInterval charItvl => t.SetCharInterval charItvl
  | BuildOp.SetAutoNextPage flag => t.SetAutoNextPage flag
  | BuildOp.SetDepth depth => t.SetDepth depth
  | BuildOp.SetPosition position => t.SetPosition position
  | BuildOp.SetAlignment alignment range => t.SetAlignment alignment range
  | BuildOp.SetAlignmentAt depth alignment range => t.SetAlignmentAt depth alignment range
  | BuildOp.SetLineInterval lineItvl => t.SetLineInterval lineItvl

/-- The run reached by a constructor call followed by run-building calls. -/
def build (pool : CharWidthPool) (c : Ctor) (ops : List BuildOp) : Text :=
  ops.foldl (BuildOp.apply pool) (c.run pool)

/-- The font sizes a constructor call brings in are not negative: its
`fontSize` argument and, for the indent constructor, the uninitialised
`fontSize` of the indentation unit. -/
def Ctor.fontNonneg : Ctor → Bool
  | Ctor.plain => true
  | Ctor.indent _ fontSize _ _ u => decide (0 ≤ fontSize) && decide (0 ≤ u.fontSize)
  | Ctor.pos _ fontSize _ _ => decide (0 ≤ fontSize)
  | Ctor.depth _ fontSize _ _ _ => decide (0 ≤ fontSize)

/-- The font sizes a run-building call brings in are not negative: the
argument of `SetFontSize` and the uninitialised `fontSize` of a spacing unit. -/
def BuildOp.fontNonneg : BuildOp → Bool
  | BuildOp.Space _ u => decide (0 ≤ u.fontSize)
  | BuildOp.SetIndent _ u => decide (0 ≤ u.fontSize)
  | BuildOp.SetFontSize fontSize => decide (0 ≤ fontSize)
  | _ => true

/-- The invariant behind C9: no font size is negative and no total advance is
below the raw advance. -/
def AdvanceInv (t : Text) : Prop :=
  0 ≤ t.m_fontSize ∧ ∀ ch ∈ t.m_text, 0 ≤ ch.fontSize ∧ ch.charLen ≤ ch.length

/-- The invariant behind C10: while the interval ratio is at most 1, every
unit has its total advance equal to its raw advance. -/
def NoIntervalInv (t : Text) : Prop :=
  t.m_charItvlRatio ≤ 1 → ∀ ch ∈ t.m_text, ch.length = ch.charLen

/-- A left-aligned run of three spacing units, each 400 wide. -/
def threeWide : Text :=
  (((Text.default.Space 400 ⟨0, 0⟩).Space 400 ⟨0, 0⟩).Space 400 ⟨0, 0⟩).SetAlignment
    ALIGNMENT.LEFT defaultRange

/-- The constructor call of the centring example: `abc` at font size 12. -/
def abcCtor : Ctor := Ctor.pos [97, 98, 99] 12 ⟨100, 100⟩ false

/-- The constructor call of the advance example. -/
def mixedCtor : Ctor := Ctor.indent [97, 0x4E2D] 12 2 false ⟨0, 0⟩

/-- The run-building calls of the advance example. -/
def mixedOps : List BuildOp :=
  [BuildOp.SetCharInterval 2, BuildOp.Append [98, 9] true, BuildOp.Space 5 ⟨3, 0⟩,
    BuildOp.SetFontSize 10, BuildOp.NextLine, BuildOp.SetIndent 2 ⟨1, 0⟩,
    BuildOp.SetCharInterval 3]

/-- The number of units at which `textHandling`, started at cursor `cur` on
the units given, takes the page-break branch
`if (m_autoNextPage && (curPos.y < PDF_PADDING))` and puts the cursor back to
the top of the page. -/
def pageWraps (t : Text) : Cursor → List Character → ℕ
  | _, [] => 0
  | cur, ch :: rest =>
    (if (lineOverflow t cur.x ch || isEOL ch) && t.m_autoNextPage &&
        decide (cur.y - t.m_fontSize * t.m_lineItvl < (PDF_PADDING : ℕ)) then 1 else 0)
      + pageWraps t (layoutUnit t cur ch).1 rest

/-- The unit the constructors build for the code point `c` at font size 12. -/
def lineUnit (c : ℕ) : Character := Character.ctor samplePool c (GetLanguage c) 12 1 false

/-- The run `a`, newline, `b`, newline, `c` at font size 12, anchored at depth
930 (y = 70), with auto page break. -/
def threeLines : Text :=
  (Text.ofPos samplePool [97, 10, 98, 10, 99] 12 ⟨100, 930⟩ false).SetAutoNextPage true

/-- The same three lines at font size 800 (line height 960), anchored at
depth 50 (y = 950), with auto page break. -/
def tallLines : Text :=
  (Text.ofPos samplePool [97, 10, 98, 10, 99] 800 ⟨100, 50⟩ false).SetAutoNextPage true

/-- The run `a`, newline, `b` at font size 12, anchored at (100, depth 100). -/
def twoLines : Text := Text.ofPos samplePool [97, 10, 98] 12 ⟨100, 100⟩ false

/-- The run `ab` at font size 12 after `SetCharInterval(0.5)`. -/
def tightRun : Text := (Text.ofPos samplePool [97, 98] 12 ⟨100, 100⟩ false).SetCharInterval (1 / 2)

/-- The run of the single unit `a` at font size 12. -/
def singleLetter : Text := Text.ofPos samplePool [97] 12 ⟨100, 100⟩ false

/-- The run `Text().NextLine().Append(L"a")`: a newline, then `a`. -/
def newlineFirst : Text := (Text.default.NextLine).Append samplePool [97] false

/-- The run `abc` at font size 12, centred in the range [100, 300]. -/
def centredRun : Text :=
  (Text.ofPos samplePool [97, 98, 99] 12 ⟨100, 100⟩ false).SetAlignment ALIGNMENT.CENTER ⟨100, 300⟩

/-- The run `ab` at font size 12, right aligned with the range {300, 100},
whose right bound is below its left bound. -/
def invertedRun : Text :=
  (Text.ofPos samplePool [97, 98] 12 ⟨100, 100⟩ false).SetAlignment ALIGNMENT.RIGHT ⟨300, 100⟩

/-- The payload a unit contributes to the buffer (what `BufferAppend` appends):
the hex string of a CJK unit, the character of a Latin unit, nothing otherwise. -/
def payloadOf (ch : Character) : List Char :=
  match ch.lang, ch.content with
  | LANGUAGE.CHINESE, Content.str s => s
  | LANGUAGE.ENGLISH, Content.chr c => [c]
  | _, _ => []

/-- A unit is visible when it is a CJK or a Latin unit. -/
def visible (ch : Character) : Bool :=
  decide (ch.lang = LANGUAGE.CHINESE ∨ ch.lang = LANGUAGE.ENGLISH)

/-- The font identifier of a span: `Song` for CJK, `TmRm` otherwise. -/
def fontOf (lang : LANGUAGE) : String := if lang = LANGUAGE.CHINESE then "Song" else "TmRm"

/-- The delimited payload of a span: angle brackets for CJK, parentheses for
Latin. -/
def delimit (lang : LANGUAGE) (buffer : List Char) : List Char :=
  if lang = LANGUAGE.CHINESE then '<' :: buffer ++ ['>']
  else if lang = LANGUAGE.ENGLISH then '(' :: buffer ++ [')']
  else []

/-- A span as the statements describe it: the units whose payload one flush
serializes, with the bold flag and the font size the flush used. -/
structure Span where
  units : List Character
  bold : Bool
  fontSize : ℚ

/-- The commands expected for a span: the group `drawContent` produces at the
position of the first unit of the span, with the font and the delimiters of
its script and the escaped concatenation of the payloads of its units. -/
def Span.draw (t : Text) (s : Span) : List Command :=
  match s.units with
  | [] => []
  | first :: _ =>
    drawContent (fontOf first.lang) s.fontSize ((t.m_charItvlRatio - 1) * s.fontSize)
      first.position s.bold (delimit first.lang (hanndleSpecialChar (s.units.flatMap payloadOf)))

/-- The invariant of the main loop of `GetContent` between two iterations, for
the spans flushed so far and the units `cur` whose payload is pending in the
buffer: the commands written so far are the groups of the flushed spans, the
buffer holds the payloads of the pending units, the pending span is anchored
at its first unit, which is visible and has the script `preLang`, and a
visible `preLang` comes with a pending unit. `B` records that some unit of the
run is bold. -/
structure SpanInv (B : Prop) (t : Text) (σ : EmitState) (spans : List Span)
    (cur : List Character) : Prop where
  cmds : σ.done.flatten ++ σ.page = spans.flatMap (Span.draw t)
  buf : σ.buffer = cur.flatMap payloadOf
  anchor : ∀ first rest, cur = first :: rest →
    visible first = true ∧ first.position = σ.prePos ∧ first.lang = σ.preLang
  pending : (σ.preLang = LANGUAGE.CHINESE ∨ σ.preLang = LANGUAGE.ENGLISH) → cur ≠ []
  bold : σ.preBold = true → B
  spanBold : ∀ s ∈ spans, s.bold = true → B
  spanUnits : ∀ s ∈ spans, s.units ≠ []

/-- The bold run `a`, space, the CJK character U+4E2D, `b` at font size 12,
anchored at (100, 100). -/
def boldMixed : Text := Text.ofPos samplePool [97, 32, 0x4E2D, 98] 12 ⟨100, 100⟩ true

/-- The run `(a)(b)` at font size 12, anchored at (100, 100). -/
def parenRun : Text := Text.ofPos samplePool parenText 12 ⟨100, 100⟩ false

/-- The unit the constructors build for the code point `c` at font size 12,
with the position `p` written into it. -/
def placed (c : ℕ) (bold : Bool) (p : Vector2) : Character :=
  { Character.ctor samplePool c (GetLanguage c) 12 1 bold with position := p }

/-- The run `boldMixed` after `CalcLayout`. -/
def boldMixedLaid : Text := textHandling (boldMixed.withColumn ⟨100, 657⟩)

/-- The run `parenRun` after `CalcLayout`. -/
def parenRunLaid : Text := textHandling (parenRun.withColumn ⟨100, 657⟩)

/-- The run `invertedRun` after `CalcLayout`. -/
def invertedRunLaid : Text := textHandling (invertedRun.withColumn ⟨437 / 5, 100⟩)

/-- The values of type `float` (IEEE 754 binary32) with at most `k` fraction
bits and magnitude below `2^24 / 2^k`: the multiples `m / 2^k` of `2^-k` with
`|m| < 2^24`, for `k ≤ 149`. Binary32 arithmetic is exact on them: when the
operands and the exact result of an addition are all of this form (same `k`),
the `float` result is that exact result. Their magnitude is below `2^24`, so
`static_cast<int>` of such a value does not leave the range of the 32-bit
`int`, and the `int` it gives converts back to `float` unchanged in a
comparison with a `float`. -/
def exactFloat (k : ℕ) (q : ℚ) : Prop :=
  k ≤ 149 ∧ (q * 2 ^ k).den = 1 ∧ -(2 ^ 24 : ℚ) < q * 2 ^ k ∧ q * 2 ^ k < 2 ^ 24

instance (k : ℕ) (q : ℚ) : Decidable (exactFloat k q) := by
  unfold exactFloat; infer_instance

/-- The x arithmetic of `textHandling` is exact along the units `xs`, from the
cursor `cur` on: at every unit the cursor's x, the unit's `charLen` and
`length`, the sum `curPos.x + ch.charLen` of the overflow test and the sum
`curPos.x + ch.length` that becomes the next cursor's x are binary32 values
with at most `k` fraction bits and magnitude below `2^24 / 2^k`. The model
then computes the same cursor x and the same overflow test as the `float` and
`int` arithmetic of the program. -/
def exactAdvance (k : ℕ) (t : Text) : Cursor → List Character → Prop
  | _, [] => True
  | cur, ch :: rest =>
    exactFloat k cur.x ∧ exactFloat k ch.charLen ∧ exactFloat k (cur.x + ch.charLen) ∧
    exactFloat k t.m_range.x ∧ exactFloat k ch.length ∧
    exactFloat k (layoutUnit t cur ch).1.x ∧
    exactAdvance k t (layoutUnit t cur ch).1 rest

/-- The predicate `exactAdvance` is decidable, by recursion over the units. -/
def exactAdvance.decide (k : ℕ) (t : Text) :
    (cur : Cursor) → (xs : List Character) → Decidable (exactAdvance k t cur xs)
  | _, [] => isTrue trivial
  | cur, ch :: rest =>
    have : Decidable (exactAdvance k t (layoutUnit t cur ch).1 rest) :=
      exactAdvance.decide k t (layoutUnit t cur ch).1 rest
    decidable_of_iff
      (exactFloat k cur.x ∧ exactFloat k ch.charLen ∧ exactFloat k (cur.x + ch.charLen) ∧
        exactFloat k t.m_range.x ∧ exactFloat k ch.length ∧
        exactFloat k (layoutUnit t cur ch).1.x ∧
        exactAdvance k t (layoutUnit t cur ch).1 rest) Iff.rfl

instance (k : ℕ) (t : Text) (cur : Cursor) (xs : List Character) :
    Decidable (exactAdvance k t cur xs) := exactAdvance.decide k t cur xs

/-- The inverse of `insertBeforeFirst c`: the character in front of the first
occurrence of `c` is removed (nothing is removed when `c` does not occur or
occurs first). -/
def removeBeforeFirst (c : Char) : List Char → List Char
  | x :: y :: rest =>
    if x = c then x :: y :: rest
    else if y = c then y :: rest
    else x :: removeBeforeFirst c (y :: rest)
  | l => l

/-- The removal of the escape markers `hanndleSpecialChar` inserts. -/
def unescape (buffer : List Char) : List Char :=
  removeBeforeFirst '(' (removeBeforeFirst ')' buffer)

/-- The payload of a command: its content without the two delimiters and
without the escape markers. -/
def Command.payload (c : Command) : List Char := unescape c.content.tail.dropLast

@[simp] theorem withColumn_m_text (t : Text) (r : Vector2) : (t.withColumn r).m_text = t.m_text :=
  rfl

@[simp] theorem withColumn_m_range (t : Text) (r : Vector2) : (t.withColumn r).m_range = r := rfl

@[simp] theorem withColumn_m_lineCount (t : Text) (r : Vector2) :
    (t.withColumn r).m_lineCount = 0 := rfl

@[simp] theorem withColumn_m_autoNextPage (t : Text) (r : Vector2) :
    (t.withColumn r).m_autoNextPage = t.m_autoNextPage := rfl

@[simp] theorem withColumn_m_fontSize (t : Text) (r : Vector2) :
    (t.withColumn r).m_fontSize = t.m_fontSize := rfl

@[simp] theorem withColumn_m_lineItvl (t : Text) (r : Vector2) :
    (t.withColumn r).m_lineItvl = t.m_lineItvl := rfl

@[simp] theorem withColumn_m_startPosition (t : Text) (r : Vector2) :
    (t.withColumn r).m_startPosition = t.m_startPosition := rfl

@[simp] theorem withColumn_GetLength (t : Text) (r : Vector2) :
    (t.withColumn r).GetLength = t.GetLength := rfl

theorem layoutLoop_append (t : Text) (cur : Cursor) (xs ys : List Character) :
    layoutLoop t cur (xs ++ ys) =
      ((layoutLoop t (layoutLoop t cur xs).1 ys).1,
        (layoutLoop t cur xs).2 ++ (layoutLoop t (layoutLoop t cur xs).1 ys).2) := by
  induction xs generalizing cur with
  | nil => simp [layoutLoop]
  | cons x xs ih => simp [layoutLoop, ih]

theorem layoutLoop_length (t : Text) (cur : Cursor) (xs : List Character) :
    (layoutLoop t cur xs).2.length = xs.length := by
  induction xs generalizing cur with
  | nil => simp [layoutLoop]
  | cons x xs ih => simp [layoutLoop, ih]

theorem truncToInt_intCast (z : ℤ) : truncToInt (z : ℚ) = z := by
  unfold truncToInt
  split_ifs <;> simp

theorem nextLine_x (t : Text) (cur : Cursor) : (nextLine t cur).x = t.m_range.x := by
  unfold nextLine; split_ifs <;> rfl

theorem nextLine_lineCount (t : Text) (cur : Cursor) :
    (nextLine t cur).lineCount = cur.lineCount + 1 := by
  unfold nextLine; split_ifs <;> rfl

theorem interval_of_le_one (r fs : ℚ) (h : r ≤ 1) : interval r fs = 0 := by
  unfold interval
  rw [if_neg (not_lt.mpr h)]

theorem ctor_length_of_le_one (pool : CharWidthPool) (c : ℕ) (lang : LANGUAGE) (fs r : ℚ)
    (b : Bool) (h : r ≤ 1) :
    (Character.ctor pool c lang fs r b).length = (Character.ctor pool c lang fs r b).charLen := by
  have hi := interval_of_le_one r fs h
  cases lang <;> simp only [Character.ctor] <;> try split_ifs
  all_goals first | rfl | (rw [hi]; ring)

theorem layoutUnit_cursor_x (t : Text) (cur : Cursor) (ch : Character) :
    (layoutUnit t cur ch).1.x =
      (if (lineOverflow t cur.x ch || isEOL ch) = true then t.m_range.x + ch.length
        else cur.x + ch.length) := by
  simp only [layoutUnit, placeCursor]
  split
  · rw [nextLine_x]
  · rfl

/-! ## C1: when a unit is moved to a new line -/

theorem exactAdvance_append (k : ℕ) (t : Text) (cur : Cursor) (xs ys : List Character) :
    exactAdvance k t cur (xs ++ ys) ↔
      exactAdvance k t cur xs ∧ exactAdvance k t (layoutLoop t cur xs).1 ys := by
  induction xs generalizing cur with
  | nil => simp [exactAdvance, layoutLoop]
  | cons x xs ih =>
    have e : exactAdvance k t (layoutUnit t cur x).1 (xs.append ys) ↔ _ :=
      ih (layoutUnit t cur x).1
    simp only [List.cons_append, exactAdvance, layoutLoop, and_assoc]
    rw [e]

theorem exactFloat_abs_lt (k : ℕ) (q : ℚ) (h : exactFloat k q) :
    -(2 ^ 24 : ℚ) < q ∧ q < 2 ^ 24 := by
  obtain ⟨_, _, h1, h2⟩ := h
  have hk : (1 : ℚ) ≤ 2 ^ k := one_le_pow₀ (by norm_num)
  constructor
  · by_contra hc
    push_neg at hc
    have : q * 2 ^ k ≤ -(2 ^ 24 : ℚ) := by nlinarith
    linarith
  · by_contra hc
    push_neg at hc
    have : (2 ^ 24 : ℚ) ≤ q * 2 ^ k := by nlinarith
    linarith

theorem truncToInt_range (q : ℚ) (h1 : -(2 ^ 24 : ℚ) < q) (h2 : q < 2 ^ 24) :
    -(2 ^ 24 : ℤ) ≤ truncToInt q ∧ truncToInt q ≤ 2 ^ 24 := by
  unfold truncToInt
  split_ifs with h0
  · constructor
    · have : (0 : ℤ) ≤ ⌊q⌋ := Int.floor_nonneg.mpr h0
      omega
    · have : ((⌊q⌋ : ℤ) : ℚ) ≤ q := Int.floor_le q
      have : ((⌊q⌋ : ℤ) : ℚ) < ((2 ^ 24 : ℤ) : ℚ) := by push_cast; linarith
      exact le_of_lt (by exact_mod_cast this)
  · push_neg at h0
    constructor
    · have : q ≤ ((⌈q⌉ : ℤ) : ℚ) := Int.le_ceil q
      have : ((-(2 ^ 24) : ℤ) : ℚ) < ((⌈q⌉ : ℤ) : ℚ) := by push_cast; linarith
      exact le_of_lt (by exact_mod_cast this)
    · have : ⌈q⌉ ≤ 0 := Int.ceil_le.mpr (by push_cast; linarith)
      omega

/-- C1 (amended): in `textHandling`, on a run whose x arithmetic is exact up
to the unit (`exactAdvance`: the cursor's x, the advances and their sums are
binary32 values with at most `k` fraction bits and magnitude below
`2^24 / 2^k`, so that the `float` sum of the program is the exact sum and its
cast to the 32-bit `int` is the truncation of it), the unit that follows the
units `pre` is moved to a new line exactly when the truncation to `int` of
`cursor.x + unit.charLen` exceeds the right bound or the unit is a newline:
then its x is the left bound, its y is the cursor's y lowered by
`m_fontSize * m_lineItvl` (or 950, the top of the page, when auto page break is
on and the lowered y is below 50) and the line counter grows by one; otherwise
it is placed at the cursor and the line counter is unchanged. The truncated
sum lies within the range of the 32-bit `int`. The y coordinate is the exact
value of the expression. -/
theorem textHandling_places_unit (t : Text) (pre post : List Character) (ch : Character)
    (k : ℕ) (h : t.m_text = pre ++ ch :: post)
    (hex : exactAdvance k t (startCursor t) (pre ++ [ch])) :
    (textHandling t).m_text[pre.length]? = some
      { ch with position :=
          if ((truncToInt ((cursorBefore t pre).x + ch.charLen) : ℤ) : ℚ) > t.m_range.y ∨
              (ch.lang = LANGUAGE.ESCAPE_CHAR ∧ ch.content = Content.chr (Char.ofNat 10)) then
            ⟨t.m_range.x,
              if t.m_autoNextPage = true ∧
                  (cursorBefore t pre).y - t.m_fontSize * t.m_lineItvl < 50 then 950
              else (cursorBefore t pre).y - t.m_fontSize * t.m_lineItvl⟩
          else ⟨(cursorBefore t pre).x, (cursorBefore t pre).y⟩ } ∧
    (cursorBefore t (pre ++ [ch])).lineCount =
      (cursorBefore t pre).lineCount +
        (if ((truncToInt ((cursorBefore t pre).x + ch.charLen) : ℤ) : ℚ) > t.m_range.y ∨
              (ch.lang = LANGUAGE.ESCAPE_CHAR ∧ ch.content = Content.chr (Char.ofNat 10))
          then 1 else 0) ∧
    (-(2 ^ 31 : ℤ) ≤ truncToInt ((cursorBefore t pre).x + ch.charLen) ∧
      truncToInt ((cursorBefore t pre).x + ch.charLen) < 2 ^ 31) := by
  refine ⟨?_, ?_, ?_⟩
  · simp only [textHandling, h, layoutLoop_append, layoutLoop, cursorBefore]
    rw [List.getElem?_append_right (by rw [layoutLoop_length])]
    simp only [layoutLoop_length, Nat.sub_self, List.getElem?_cons_zero, layoutUnit,
      placeCursor, lineOverflow, isEOL, nextLine, PDF_PADDING, PDF_HEIGHT]
    congr 1
    split_ifs <;> simp_all
  · simp only [layoutLoop_append, layoutLoop, layoutUnit, placeCursor, lineOverflow, isEOL,
      nextLine, cursorBefore]
    split_ifs <;> simp_all
  · have h1 := ((exactAdvance_append k t (startCursor t) pre [ch]).mp hex).2
    have h2 : exactFloat k ((cursorBefore t pre).x + ch.charLen) := h1.2.2.1
    obtain ⟨a, b⟩ := exactFloat_abs_lt k _ h2
    obtain ⟨c, d⟩ := truncToInt_range _ a b
    constructor <;> omega

/-- C1 (witness): the placement theorem at the second unit of `twoSpaces`,
where every value of the x arithmetic (50, 600, 650, 7.5, 657.5) has at most
one fraction bit. -/
theorem textHandling_places_unit_witness :
    twoSpaces.m_text = [space600] ++ space7h :: [] ∧
    exactAdvance 1 twoSpaces (startCursor twoSpaces) ([space600] ++ [space7h]) ∧
    ((textHandling twoSpaces).m_text[[space600].length]? = some
      { space7h with position :=
          if ((truncToInt ((cursorBefore twoSpaces [space600]).x + space7h.charLen) : ℤ) : ℚ)
                > twoSpaces.m_range.y ∨
              (space7h.lang = LANGUAGE.ESCAPE_CHAR ∧
                space7h.content = Content.chr (Char.ofNat 10)) then
            ⟨twoSpaces.m_range.x,
              if twoSpaces.m_autoNextPage = true ∧
                  (cursorBefore twoSpaces [space600]).y
                    - twoSpaces.m_fontSize * twoSpaces.m_lineItvl < 50 then 950
              else (cursorBefore twoSpaces [space600]).y
                    - twoSpaces.m_fontSize * twoSpaces.m_lineItvl⟩
          else ⟨(cursorBefore twoSpaces [space600]).x, (cursorBefore twoSpaces [space600]).y⟩ } ∧
    (cursorBefore twoSpaces ([space600] ++ [space7h])).lineCount =
      (cursorBefore twoSpaces [space600]).lineCount +
        (if ((truncToInt ((cursorBefore twoSpaces [space600]).x + space7h.charLen) : ℤ) : ℚ)
                > twoSpaces.m_range.y ∨
              (space7h.lang = LANGUAGE.ESCAPE_CHAR ∧
                space7h.content = Content.chr (Char.ofNat 10))
          then 1 else 0) ∧
    (-(2 ^ 31 : ℤ) ≤ truncToInt ((cursorBefore twoSpaces [space600]).x + space7h.charLen) ∧
      truncToInt ((cursorBefore twoSpaces [space600]).x + space7h.charLen) < 2 ^ 31)) :=
  ⟨rfl, by decide!,
    textHandling_places_unit twoSpaces [space600] [] space7h 1 rfl (by decide!)⟩

/-- C1 (counterexample): in a left-aligned run of two spacing units of widths
600 and 7.5 the cursor is at 650 before the second unit, `650 + 7.5` exceeds
the right bound 657, and yet the unit is placed at the cursor on the same line
and the line counter stays 0. -/
theorem CalcLayout_overflow_below_one_counterexample :
    ∃ t, Text.CalcLayout twoSpaces = some t ∧
      t.m_range = ⟨50, 657⟩ ∧
      t.m_text.map (fun ch => (ch.charLen, ch.position)) =
        [(600, ⟨50, 0⟩), (15 / 2, ⟨650, 0⟩)] ∧
      (650 : ℚ) + 15 / 2 > 657 ∧
      t.m_lineCount = 0 := by
  refine ⟨_, rfl, by decide!, by decide!, by norm_num, by decide!⟩

/-! ## C2: number of line breaks of a run of equal units -/

theorem layoutLoop_uniform_lineCount (t : Text) (L w : ℤ) (W : ℚ) (hw : 0 < w) (hW : (w : ℚ) < W)
    (hx : t.m_range.x = L) (hy : t.m_range.y = L + W)
    (xs : List Character)
    (hu : ∀ ch ∈ xs, ch.charLen = w ∧ ch.length = w ∧ isEOL ch = false)
    (cur : Cursor) (j : ℕ) (hj : j ≤ ⌊W / w⌋₊) (hc : cur.x = L + j * w) :
    (layoutLoop t cur xs).1.lineCount = cur.lineCount + (j + xs.length - 1) / ⌊W / w⌋₊ := by
  have hwq : (0 : ℚ) < w := by exact_mod_cast hw
  have hk : 1 ≤ ⌊W / w⌋₊ := by
    rw [Nat.one_le_floor_iff, le_div_iff₀ hwq]
    linarith
  induction xs generalizing cur j with
  | nil =>
    simp only [layoutLoop, List.length_nil, Nat.add_zero]
    rw [Nat.div_eq_of_lt (by omega)]
    rfl
  | cons ch xs ih =>
    obtain ⟨h1, h2, h3⟩ := hu ch (List.mem_cons_self _ _)
    have hu1 : ∀ c ∈ xs, c.charLen = w ∧ c.length = w ∧ isEOL c = false :=
      fun c hcm => hu c (List.mem_cons_of_mem _ hcm)
    have hov : lineOverflow t cur.x ch = true ↔ ⌊W / w⌋₊ < j + 1 := by
      have e : cur.x + ch.charLen = ((L + j * w + w : ℤ) : ℚ) := by
        rw [hc, h1]; push_cast; ring
      unfold lineOverflow
      rw [e, truncToInt_intCast, hy, decide_eq_true_iff,
        Nat.floor_lt (div_nonneg (by linarith) hwq.le), div_lt_iff₀ hwq]
      push_cast
      constructor <;> intro h <;> nlinarith
    simp only [layoutLoop, layoutUnit, placeCursor, h3, Bool.or_false, List.length_cons]
    by_cases hlt : j < ⌊W / w⌋₊
    · have hno : lineOverflow t cur.x ch = false := by
        rw [← Bool.not_eq_true, hov]; omega
      rw [hno, if_neg (by simp)]
      rw [ih hu1 _ (j + 1) hlt (by simp only [hc, h2]; push_cast; ring)]
      congr 2
      omega
    · have hyes : lineOverflow t cur.x ch = true := by rw [hov]; omega
      rw [hyes, if_pos rfl]
      rw [ih hu1 _ 1 hk (by simp only [nextLine_x, hx, h2]; push_cast; ring)]
      simp only [nextLine_lineCount]
      have hjk : j = ⌊W / w⌋₊ := by omega
      rw [hjk, show ⌊W / w⌋₊ + (xs.length + 1) - 1 = ⌊W / w⌋₊ + xs.length by omega,
        Nat.add_div_left _ (by omega), show 1 + xs.length - 1 = xs.length by omega]
      omega

theorem exactFloat_intCast (n : ℤ) (h1 : -(2 ^ 24 : ℚ) < n) (h2 : (n : ℚ) < 2 ^ 24) :
    exactFloat 0 (n : ℚ) := by
  refine ⟨by omega, ?_, ?_, ?_⟩
  · rw [pow_zero, mul_one]; exact Rat.den_intCast n
  · rw [pow_zero, mul_one]; exact h1
  · rw [pow_zero, mul_one]; exact h2

theorem layoutLoop_uniform_exact (t : Text) (L w : ℤ) (W : ℚ) (hw : 0 < w) (hW : (w : ℚ) < W)
    (hlo : -(2 ^ 24 : ℚ) < L) (hhi : (L : ℚ) + W + w < 2 ^ 24)
    (hx : t.m_range.x = L) (hy : t.m_range.y = L + W)
    (xs : List Character)
    (hu : ∀ ch ∈ xs, ch.charLen = w ∧ ch.length = w ∧ isEOL ch = false)
    (cur : Cursor) (j : ℕ) (hj : j ≤ ⌊W / w⌋₊) (hc : cur.x = L + j * w) :
    exactAdvance 0 t cur xs := by
  have hwq : (0 : ℚ) < w := by exact_mod_cast hw
  have hWpos : (0 : ℚ) < W := by linarith
  have hk : 1 ≤ ⌊W / w⌋₊ := by
    rw [Nat.one_le_floor_iff, le_div_iff₀ hwq]
    linarith
  have hjw : ∀ i : ℕ, i ≤ ⌊W / w⌋₊ → (i : ℚ) * w ≤ W := by
    intro i hi
    have h1 : (i : ℚ) ≤ W / w :=
      le_trans (by exact_mod_cast hi) (Nat.floor_le (div_nonneg hWpos.le hwq.le))
    calc (i : ℚ) * w ≤ W / w * w := mul_le_mul_of_nonneg_right h1 hwq.le
      _ = W := div_mul_cancel₀ W (ne_of_gt hwq)
  induction xs generalizing cur j with
  | nil => trivial
  | cons ch xs ih =>
    obtain ⟨h1, h2, h3⟩ := hu ch (List.mem_cons_self _ _)
    have hu1 : ∀ c ∈ xs, c.charLen = w ∧ c.length = w ∧ isEOL c = false :=
      fun c hcm => hu c (List.mem_cons_of_mem _ hcm)
    have hjb := hjw j hj
    have hcx : cur.x = ((L + j * w : ℤ) : ℚ) := by rw [hc]; push_cast; ring
    have hsum : cur.x + ch.charLen = ((L + j * w + w : ℤ) : ℚ) := by
      rw [hc, h1]; push_cast; ring
    have hov : lineOverflow t cur.x ch = true ↔ ⌊W / w⌋₊ < j + 1 := by
      unfold lineOverflow
      rw [hsum, truncToInt_intCast, hy, decide_eq_true_iff,
        Nat.floor_lt (div_nonneg (by linarith) hwq.le), div_lt_iff₀ hwq]
      push_cast
      constructor <;> intro h <;> nlinarith
    have hnext : (layoutUnit t cur ch).1.x = ((L + w : ℤ) : ℚ) ∨
        (j < ⌊W / w⌋₊ ∧ (layoutUnit t cur ch).1.x = ((L + (j + 1) * w : ℤ) : ℚ)) := by
      rw [layoutUnit_cursor_x, h3, Bool.or_false, h2]
      by_cases hlt : j < ⌊W / w⌋₊
      · right
        have hno : ¬ lineOverflow t cur.x ch = true := by rw [hov]; omega
        rw [if_neg hno, hc]
        exact ⟨hlt, by push_cast; ring⟩
      · left
        have hyes : lineOverflow t cur.x ch = true := by rw [hov]; omega
        rw [if_pos hyes, hx]
        push_cast; ring
    refine ⟨?_, ?_, ?_, ?_, ?_, ?_, ?_⟩
    · rw [hcx]
      exact exactFloat_intCast _ (by push_cast; nlinarith) (by push_cast; nlinarith)
    · rw [h1]
      exact exactFloat_intCast _ (by linarith) (by linarith)
    · rw [hsum]
      exact exactFloat_intCast _ (by push_cast; nlinarith) (by push_cast; nlinarith)
    · rw [hx]
      exact exactFloat_intCast _ hlo (by linarith)
    · rw [h2]
      exact exactFloat_intCast _ (by linarith) (by linarith)
    · rcases hnext with hn | ⟨hlt, hn⟩
      · rw [hn]
        exact exactFloat_intCast _ (by push_cast; linarith) (by push_cast; linarith)
      · rw [hn]
        have := hjw (j + 1) hlt
        push_cast at this
        exact exactFloat_intCast _ (by push_cast; nlinarith) (by push_cast; nlinarith)
    · rcases hnext with hn | ⟨hlt, hn⟩
      · exact ih hu1 _ 1 hk (by rw [hn]; push_cast; ring)
      · exact ih hu1 _ (j + 1) hlt (by rw [hn]; push_cast; ring)

/-- C2 (amended): when the column `CalcLayout` computes has an integer left
bound `L` and width `W`, the run consists of `N` units with
`charLen = length = w`, `w` an integer with `0 < w < W`, none of them a
newline, and `-2^24 < L` and `L + W + w < 2^24`, then every value of the x
arithmetic is an integer of magnitude below `2^24` (`exactAdvance` with no
fraction bit: the `float` sums are exact and their casts stay within the
32-bit `int`), `CalcLayout` returns and its line counter is
`(N - 1) / floor (W / w)` (natural-number division, `0` for `N = 0`): every line
holds `floor (W / w)` units. -/
theorem CalcLayout_uniform_lineCount (t : Text) (L w : ℤ) (W : ℚ)
    (hw : 0 < w) (hW : (w : ℚ) < W)
    (hlo : -(2 ^ 24 : ℚ) < L) (hhi : (L : ℚ) + W + w < 2 ^ 24)
    (hr : alignRange t = some ⟨L, L + W⟩)
    (hu : ∀ ch ∈ t.m_text, ch.charLen = w ∧ ch.length = w ∧ isEOL ch = false) :
    ∃ t1, t.CalcLayout = some t1 ∧
      t1.m_lineCount = (t.m_text.length - 1) / ⌊W / w⌋₊ ∧
      exactAdvance 0 (t.withColumn ⟨L, L + W⟩) (startCursor (t.withColumn ⟨L, L + W⟩))
        t.m_text := by
  refine ⟨textHandling (t.withColumn ⟨L, L + W⟩), ?_, ?_, ?_⟩
  · simp only [Text.CalcLayout, hr, Option.map_some', Text.withColumn]
  · simp only [textHandling, withColumn_m_text]
    rw [layoutLoop_uniform_lineCount _ L w W hw hW rfl rfl _ hu _ 0 (Nat.zero_le _)
      (by simp [startCursor])]
    simp [startCursor]
  · exact layoutLoop_uniform_exact _ L w W hw hW hlo hhi rfl rfl _ hu _ 0 (Nat.zero_le _)
      (by simp [startCursor])

/-- C2 (witness): the line-break count theorem at `threeWide`. -/
theorem CalcLayout_uniform_lineCount_witness :
    (0 : ℤ) < 400 ∧ (((400 : ℤ) : ℚ) < 607) ∧
    -(2 ^ 24 : ℚ) < ((50 : ℤ) : ℚ) ∧ (((50 : ℤ) : ℚ) + 607 + ((400 : ℤ) : ℚ) < 2 ^ 24) ∧
    alignRange threeWide = some ⟨((50 : ℤ) : ℚ), ((50 : ℤ) : ℚ) + 607⟩ ∧
    (∀ ch ∈ threeWide.m_text,
      ch.charLen = ((400 : ℤ) : ℚ) ∧ ch.length = ((400 : ℤ) : ℚ) ∧ isEOL ch = false) ∧
    ∃ t1, threeWide.CalcLayout = some t1 ∧
      t1.m_lineCount = (threeWide.m_text.length - 1) / ⌊(607 : ℚ) / ((400 : ℤ) : ℚ)⌋₊ ∧
      exactAdvance 0 (threeWide.withColumn ⟨((50 : ℤ) : ℚ), ((50 : ℤ) : ℚ) + 607⟩)
        (startCursor (threeWide.withColumn ⟨((50 : ℤ) : ℚ), ((50 : ℤ) : ℚ) + 607⟩))
        threeWide.m_text :=
  ⟨by decide, by decide!, by decide!, by decide!, by decide!, by decide!,
    CalcLayout_uniform_lineCount threeWide 50 400 607 (by decide) (by decide!) (by decide!)
      (by decide!) (by decide!) (by decide!)⟩

/-- C2 (counterexample): three units of width 400 in the column from 50 to
657 (width 607) give 2 line breaks, while `floor (3 * 400 / 607) = 1`. -/
theorem CalcLayout_uniform_floor_counterexample :
    ∃ t, Text.CalcLayout threeWide = some t ∧
      t.m_range = ⟨50, 50 + 607⟩ ∧
      (∀ ch ∈ t.m_text, ch.charLen = 400 ∧ ch.length = 400 ∧ isEOL ch = false) ∧
      t.m_text.length = 3 ∧
      t.m_lineCount = 2 ∧
      ⌊((3 * 400 : ℚ)) / 607⌋₊ = 1 := by
  refine ⟨_, rfl, by decide!, by decide!, by decide!, by decide!, ?_⟩
  rw [Nat.floor_eq_iff (by norm_num)]
  norm_num

/-! ## C3: escaping of parentheses -/

/-- C3 (the code at the failing input): the Latin run `(a)(b)` is emitted as one
command whose payload, inside the parenthesis delimiters, has a backslash
before the first `(` and the first `)` only; the second pair is not escaped. -/
theorem GetContent_escapes_first_only :
    ((Text.ofPos samplePool parenText 12 ⟨100, 100⟩ false).CalcLayout.bind Text.GetContent) =
      some [[⟨"TmRm", 12, 100, 900, 0,
        ['(', '\\', '(', 'a', '\\', ')', '(', 'b', ')', ')']⟩]] := by
  decide!

/-! ## C4: bold replication -/

/-- C4 (the code at the failing input): the run built by the indent constructor
from `ab` with `bold = true` emits the bold unit `a` in one command only, and
the bold unit `b` in five. -/
theorem GetContent_indent_bold_first_span :
    ((Text.ofIndent samplePool abText 12 0 true ⟨12, 1⟩).CalcLayout.bind Text.GetContent) =
      some [[⟨"TmRm", 12, 0, 0, 0, ['(', 'a', ')']⟩,
        ⟨"TmRm", 12, 63 / 10, 0, 0, ['(', 'b', ')']⟩,
        ⟨"TmRm", 12, 63 / 10 + 3 / 20, 0, 0, ['(', 'b', ')']⟩,
        ⟨"TmRm", 12, 63 / 10 - 3 / 20, 0, 0, ['(', 'b', ')']⟩,
        ⟨"TmRm", 12, 63 / 10, 0 + 3 / 20, 0, ['(', 'b', ')']⟩,
        ⟨"TmRm", 12, 63 / 10, 0 - 3 / 20, 0, ['(', 'b', ')']⟩]] := by
  decide!

/-! ## C5: page blocks -/

theorem writeToFile_prev_some (t : Text) (pv ch : Character) (σ : EmitState) :
    ∃ σ1, writeToFile t (some pv) ch σ = some σ1 ∧ σ1.done = σ.done ∧ σ1.xInc = σ.xInc := by
  unfold writeToFile
  by_cases h : σ.preLang = LANGUAGE.SPACING
  · rw [if_pos h]; exact ⟨_, rfl, rfl, rfl⟩
  · rw [if_neg h]; exact ⟨_, rfl, rfl, rfl⟩

theorem writeToFile_if_prev_some (t : Text) (pv ch : Character) (σ : EmitState) (c : Prop)
    [Decidable c] :
    ∃ σ1, (if c then writeToFile t (some pv) ch σ else some σ) = some σ1 ∧
      σ1.done = σ.done ∧ σ1.xInc = σ.xInc := by
  by_cases h : c
  · rw [if_pos h]; exact writeToFile_prev_some t pv ch σ
  · rw [if_neg h]; exact ⟨σ, rfl, rfl, rfl⟩

theorem BufferAppend_done (ch : Character) (σ : EmitState) :
    (BufferAppend ch σ).done = σ.done ∧ (BufferAppend ch σ).xInc = σ.xInc ∧
      (BufferAppend ch σ).page = σ.page := by
  unfold BufferAppend
  split <;> exact ⟨rfl, rfl, rfl⟩

theorem lineOverflow_layoutUnit (t t1 : Text) (cur : Cursor) (ch : Character) (x : ℚ)
    (hr : t1.m_range = t.m_range) :
    lineOverflow t1 x (layoutUnit t cur ch).2 = lineOverflow t x ch := by
  simp only [lineOverflow, layoutUnit, hr]

theorem isEOL_layoutUnit (t : Text) (cur : Cursor) (ch : Character) :
    isEOL (layoutUnit t cur ch).2 = isEOL ch := rfl

theorem emitUnit_prev_some (t : Text) (pv ch : Character) (isLast : Bool) (σ : EmitState)
    (hauto : t.m_autoNextPage = true) :
    ∃ σ1, emitUnit t (some pv) ch isLast σ = some σ1 ∧
      σ1.xInc = (if (lineOverflow t σ.xInc ch || isEOL ch) = true then t.m_range.x + ch.length
        else σ.xInc + ch.length) ∧
      σ1.done.length = σ.done.length +
        (if (lineOverflow t σ.xInc ch || isEOL ch) = true ∧ ch.position.y > pv.position.y
          then 1 else 0) := by
  unfold emitUnit
  by_cases hw : (lineOverflow t σ.xInc ch || isEOL ch) = true
  · simp only [hw, if_true, true_and]
    obtain ⟨σ1, h1, h1d, _⟩ := writeToFile_prev_some t pv ch σ
    simp only [h1, Option.some_bind, pageSplit, hauto, if_true, Option.map_some']
    by_cases hy : ch.position.y > pv.position.y
    · simp only [hy, if_true]
      obtain ⟨σ4, h4, h4d, h4x⟩ := writeToFile_if_prev_some t pv ch
        { BufferAppend ch { σ1 with done := σ1.done ++ [σ1.page], page := [] } with
          xInc := t.m_range.x + ch.length } (isLast = true)
      refine ⟨σ4, h4, by rw [h4x], ?_⟩
      rw [h4d]
      simp [(BufferAppend_done ch _).1, h1d]
    · simp only [hy, if_false]
      obtain ⟨σ4, h4, h4d, h4x⟩ := writeToFile_if_prev_some t pv ch
        { BufferAppend ch σ1 with xInc := t.m_range.x + ch.length } (isLast = true)
      refine ⟨σ4, h4, by rw [h4x], ?_⟩
      rw [h4d]
      simp [(BufferAppend_done ch _).1, h1d]
  · simp only [hw, if_false, false_and, Bool.false_eq_true]
    obtain ⟨σ1, h1, h1d, h1x⟩ := writeToFile_if_prev_some t pv ch σ (σ.preBold ≠ ch.bold)
    obtain ⟨σ2, h2, h2d, h2x⟩ := writeToFile_if_prev_some t pv ch σ1 (σ1.preLang ≠ ch.lang)
    obtain ⟨σ4, h4, h4d, h4x⟩ := writeToFile_if_prev_some t pv ch (BufferAppend ch σ2)
      (isLast = true ∧ (BufferAppend ch σ2).buffer ≠ [])
    rw [h1, Option.some_bind, h2, Option.some_bind]
    simp only [h4, Option.map_some']
    refine ⟨_, rfl, ?_, ?_⟩
    · simp only [h4x, (BufferAppend_done ch σ2).2.1, h2x, h1x]
    · simp only [h4d, (BufferAppend_done ch σ2).1, h2d, h1d, add_zero]

theorem nextLine_y_gt_iff (t : Text) (cur : Cursor) (hauto : t.m_autoNextPage = true)
    (hpos : 0 < t.m_fontSize * t.m_lineItvl) (hle : t.m_fontSize * t.m_lineItvl ≤ 900) :
    (nextLine t cur).y > cur.y ↔ cur.y - t.m_fontSize * t.m_lineItvl < (PDF_PADDING : ℕ) := by
  unfold nextLine
  simp only [hauto, Bool.true_and, decide_eq_true_eq, PDF_PADDING, PDF_HEIGHT]
  by_cases h : cur.y - t.m_fontSize * t.m_lineItvl < ((50 : ℕ) : ℚ)
  · rw [if_pos h]
    simp only [h, iff_true]
    push_cast at h ⊢
    norm_num
    linarith
  · rw [if_neg h]
    simp only [h, iff_false]
    linarith

theorem emitLoop_cons (t : Text) (prev : Option Character) (ch : Character)
    (rest : List Character) (σ : EmitState) :
    emitLoop t prev (ch :: rest) σ =
      (emitUnit t prev ch rest.isEmpty σ).bind fun σ1 => emitLoop t (some ch) rest σ1 := rfl

theorem emitPrefix_done_length (t t1 : Text) (hr : t1.m_range = t.m_range)
    (hauto : t.m_autoNextPage = true) (hauto1 : t1.m_autoNextPage = true)
    (hpos : 0 < t.m_fontSize * t.m_lineItvl) (hle : t.m_fontSize * t.m_lineItvl ≤ 900)
    (xs : List Character) (k : ℕ) (cur : Cursor) (pv : Character) (σ : EmitState)
    (hx : σ.xInc = cur.x) (hy : pv.position.y = cur.y) :
    ∃ σ1, emitPrefix t1 k (some pv) (layoutLoop t cur xs).2 σ = some σ1 ∧
      σ1.done.length = σ.done.length + pageWraps t cur (xs.take k) := by
  induction xs generalizing k cur pv σ with
  | nil => cases k <;> exact ⟨σ, rfl, rfl⟩
  | cons ch rest ih =>
    cases k with
    | zero => exact ⟨σ, rfl, rfl⟩
    | succ k =>
      simp only [layoutLoop, emitPrefix, pageWraps, List.take_succ_cons]
      obtain ⟨σ1, h1, h1x, h1d⟩ := emitUnit_prev_some t1 pv (layoutUnit t cur ch).2
        (layoutLoop t (layoutUnit t cur ch).1 rest).2.isEmpty σ hauto1
      rw [lineOverflow_layoutUnit t t1 cur ch _ hr, isEOL_layoutUnit, hx] at h1x h1d
      rw [h1, Option.some_bind]
      have hx1 : σ1.xInc = (layoutUnit t cur ch).1.x := by
        rw [h1x]
        simp only [layoutUnit, placeCursor]
        split_ifs
        · rw [nextLine_x, hr]
        · rfl
      have hy1 : (layoutUnit t cur ch).2.position.y = (layoutUnit t cur ch).1.y := rfl
      obtain ⟨σ2, h2, h2d⟩ := ih k (layoutUnit t cur ch).1 (layoutUnit t cur ch).2 σ1 hx1 hy1
      refine ⟨σ2, h2, ?_⟩
      rw [h2d, h1d, Nat.add_assoc]
      congr 2
      by_cases hw : (lineOverflow t cur.x ch || isEOL ch) = true
      · have hpy : (layoutUnit t cur ch).2.position.y = (nextLine t cur).y := by
          simp only [layoutUnit, placeCursor, hw, if_true]
        simp only [hw, true_and, hpy, hy, nextLine_y_gt_iff t cur hauto hpos hle, hauto,
          Bool.true_and, decide_eq_true_eq]
      · simp only [hw, false_and, if_false, Bool.false_and, Bool.false_eq_true]

theorem emitPrefix_length (t : Text) (xs : List Character) (prev : Option Character)
    (σ : EmitState) : emitPrefix t xs.length prev xs σ = emitLoop t prev xs σ := by
  induction xs generalizing prev σ with
  | nil => rfl
  | cons ch rest ih =>
    simp only [List.length_cons, emitPrefix, emitLoop]
    congr 1
    funext σ1
    exact ih _ _

theorem emitUnit_first (t : Text) (ch : Character) (σ : EmitState)
    (hw : (lineOverflow t σ.xInc ch || isEOL ch) = false) (hb : σ.preBold = ch.bold)
    (hl : σ.preLang = ch.lang) :
    emitUnit t none ch false σ =
      some { BufferAppend ch σ with xInc := (BufferAppend ch σ).xInc + ch.length } := by
  unfold emitUnit
  simp [hw, hb, hl]

/-- C5 (amended): with auto page break on, a line height
`m_fontSize * m_lineItvl` that is positive and at most 900, and a run of at
least two units whose first unit is not wrapped (it fits the column and is not
a newline), `CalcLayout` and then `GetContent` return, and the number of page
blocks is 1 plus the number of units at which the layout put the cursor back
to the top of the page; more precisely, for every `k`, after the first `k`
iterations of the main loop of `GetContent` the number of finished page blocks
is the number of such units among the first `k` units, so a new page block is
started exactly at those units. -/
theorem GetContent_pageBlocks (t : Text) (r : Vector2) (ch0 ch1 : Character)
    (rest : List Character)
    (hr : alignRange t = some r)
    (htxt : t.m_text = ch0 :: ch1 :: rest)
    (hauto : t.m_autoNextPage = true)
    (hpos : 0 < t.m_fontSize * t.m_lineItvl) (hle : t.m_fontSize * t.m_lineItvl ≤ 900)
    (hfit0 : ((truncToInt (r.x + ch0.charLen) : ℤ) : ℚ) ≤ r.y) (hnl0 : isEOL ch0 = false) :
    ∃ t1 blocks first, t.CalcLayout = some t1 ∧ t1.GetContent = some blocks ∧
      blocks.length =
        1 + pageWraps (t.withColumn r) (startCursor (t.withColumn r)) t.m_text ∧
      t1.m_text.head? = some first ∧
      ∀ k, ∃ σ, emitPrefix t1 k none t1.m_text (emitStart t1 first) = some σ ∧
        σ.done.length =
          pageWraps (t.withColumn r) (startCursor (t.withColumn r)) (t.m_text.take k) := by
  have hw0 : (lineOverflow (t.withColumn r) r.x ch0 || isEOL ch0) = false := by
    simp only [lineOverflow, withColumn_m_range, hnl0, Bool.or_false, decide_eq_false_iff_not,
      not_lt]
    exact hfit0
  have hunit : layoutUnit (t.withColumn r) (startCursor (t.withColumn r)) ch0 =
      (⟨r.x + ch0.length, t.m_startPosition.y, 0⟩,
        { ch0 with position := ⟨r.x, t.m_startPosition.y⟩ }) := by
    simp only [layoutUnit, placeCursor, startCursor, withColumn_m_range, hw0,
      Bool.false_eq_true, if_false, withColumn_m_startPosition, withColumn_m_lineCount]
  have hfirst := emitUnit_first (textHandling (t.withColumn r))
    { ch0 with position := ⟨r.x, t.m_startPosition.y⟩ }
    (emitStart (textHandling (t.withColumn r))
      { ch0 with position := ⟨r.x, t.m_startPosition.y⟩ }) hw0 rfl rfl
  obtain ⟨σa, hσa, hax, had⟩ : ∃ σa, emitUnit (textHandling (t.withColumn r)) none
      { ch0 with position := ⟨r.x, t.m_startPosition.y⟩ } false
      (emitStart (textHandling (t.withColumn r))
        { ch0 with position := ⟨r.x, t.m_startPosition.y⟩ }) = some σa ∧
      σa.xInc = r.x + ch0.length ∧ σa.done = [] :=
    ⟨_, hfirst, by simp only [(BufferAppend_done _ _).2.1]; rfl, (BufferAppend_done _ _).1⟩
  have hm : (textHandling (t.withColumn r)).m_text =
      { ch0 with position := ⟨r.x, t.m_startPosition.y⟩ } ::
        (layoutLoop (t.withColumn r) ⟨r.x + ch0.length, t.m_startPosition.y, 0⟩
          (ch1 :: rest)).2 := by
    simp only [textHandling, withColumn_m_text, htxt]
    rw [layoutLoop, hunit]
  have hm2 : (layoutLoop (t.withColumn r) ⟨r.x + ch0.length, t.m_startPosition.y, 0⟩
          (ch1 :: rest)).2.isEmpty = false := by
    simp [layoutLoop]
  have hpw : ∀ xs, pageWraps (t.withColumn r) (startCursor (t.withColumn r)) (ch0 :: xs) =
      pageWraps (t.withColumn r) ⟨r.x + ch0.length, t.m_startPosition.y, 0⟩ xs := by
    intro xs
    rw [pageWraps, hunit]
    simp only [startCursor, withColumn_m_range, hw0, Bool.false_and, Bool.false_eq_true,
      if_false, Nat.zero_add]
  have hstep : ∀ k, ∃ σ, emitPrefix (textHandling (t.withColumn r)) k
        (some { ch0 with position := ⟨r.x, t.m_startPosition.y⟩ })
        (layoutLoop (t.withColumn r) ⟨r.x + ch0.length, t.m_startPosition.y, 0⟩
          (ch1 :: rest)).2 σa = some σ ∧
      σ.done.length = pageWraps (t.withColumn r)
        ⟨r.x + ch0.length, t.m_startPosition.y, 0⟩ ((ch1 :: rest).take k) := by
    intro k
    obtain ⟨σ1, h1, h1d⟩ := emitPrefix_done_length (t.withColumn r)
      (textHandling (t.withColumn r)) rfl hauto hauto hpos hle (ch1 :: rest) k
      ⟨r.x + ch0.length, t.m_startPosition.y, 0⟩
      { ch0 with position := ⟨r.x, t.m_startPosition.y⟩ } σa hax rfl
    exact ⟨σ1, h1, by rw [h1d, had]; simp⟩
  obtain ⟨σ1, h1, h1d⟩ := hstep (ch1 :: rest).length
  rw [← layoutLoop_length (t.withColumn r) ⟨r.x + ch0.length, t.m_startPosition.y, 0⟩
    (ch1 :: rest), emitPrefix_length] at h1
  rw [List.take_length] at h1d
  refine ⟨textHandling (t.withColumn r), σ1.done ++ [σ1.page],
    { ch0 with position := ⟨r.x, t.m_startPosition.y⟩ }, ?_, ?_, ?_, ?_, ?_⟩
  · simp only [Text.CalcLayout, hr, Option.map_some']
  · unfold Text.GetContent
    rw [hm]
    simp only [emitLoop_cons, hm2]
    rw [hσa, Option.some_bind, h1]
    rfl
  · rw [List.length_append, h1d, htxt, hpw]
    simp only [List.length_singleton]
    omega
  · rw [hm]; rfl
  · intro k
    cases k with
    | zero => exact ⟨_, rfl, by simp [emitStart, pageWraps]⟩
    | succ k =>
      obtain ⟨σ2, h2, h2d⟩ := hstep k
      refine ⟨σ2, ?_, ?_⟩
      · rw [hm]
        simp only [emitPrefix, hm2]
        rw [hσa, Option.some_bind, h2]
      · rw [h2d, htxt, List.take_succ_cons, hpw]

/-- C5 (witness): the page-block theorem at the three lines `a`, `b`, `c`
starting at y = 70: the third line would fall to y = 41.2, below 50, so there
is one page wrap and there are two page blocks, the first with the commands of
`a` and `b`, the second with the command of `c` anchored at y = 950. -/
theorem GetContent_pageBlocks_witness :
    alignRange threeLines = some ⟨100, 657⟩ ∧
    threeLines.m_text = lineUnit 97 :: lineUnit 10 :: [lineUnit 98, lineUnit 10, lineUnit 99] ∧
    threeLines.m_autoNextPage = true ∧
    0 < threeLines.m_fontSize * threeLines.m_lineItvl ∧
    threeLines.m_fontSize * threeLines.m_lineItvl ≤ 900 ∧
    ((truncToInt ((⟨100, 657⟩ : Vector2).x + (lineUnit 97).charLen) : ℤ) : ℚ)
      ≤ (⟨100, 657⟩ : Vector2).y ∧
    isEOL (lineUnit 97) = false ∧
    (∃ t1 blocks first, threeLines.CalcLayout = some t1 ∧ t1.GetContent = some blocks ∧
      blocks.length = 1 + pageWraps (threeLines.withColumn ⟨100, 657⟩)
        (startCursor (threeLines.withColumn ⟨100, 657⟩)) threeLines.m_text ∧
      t1.m_text.head? = some first ∧
      ∀ k, ∃ σ, emitPrefix t1 k none t1.m_text (emitStart t1 first) = some σ ∧
        σ.done.length = pageWraps (threeLines.withColumn ⟨100, 657⟩)
          (startCursor (threeLines.withColumn ⟨100, 657⟩)) (threeLines.m_text.take k)) ∧
    pageWraps (threeLines.withColumn ⟨100, 657⟩)
      (startCursor (threeLines.withColumn ⟨100, 657⟩)) threeLines.m_text = 1 ∧
    threeLines.CalcLayout.bind Text.GetContent =
      some [[⟨"TmRm", 12, 100, 70, 0, ['(', 'a', ')']⟩,
             ⟨"TmRm", 12, 100, 278 / 5, 0, ['(', 'b', ')']⟩],
            [⟨"TmRm", 0, 100, 950, 0, ['(', 'c', ')']⟩]] :=
  ⟨by decide!, by decide!, by decide!, by decide!, by decide!, by decide!, by decide!,
    GetContent_pageBlocks threeLines ⟨100, 657⟩ (lineUnit 97) (lineUnit 10)
      [lineUnit 98, lineUnit 10, lineUnit 99] (by decide!) (by decide!) (by decide!)
      (by decide!) (by decide!) (by decide!) (by decide!),
    by decide!, by decide!⟩

/-- C5 (counterexample): with font size 800 the line height is 960; the
layout puts the cursor back to the top of the page at both newlines, yet both
times the new y (950) is not above the previous y (950) and `GetContent`
returns a single page block. -/
theorem GetContent_tall_lines_counterexample :
    tallLines.m_autoNextPage = true ∧
    0 < tallLines.m_fontSize * tallLines.m_lineItvl ∧
    alignRange tallLines = some ⟨100, 657⟩ ∧
    pageWraps (tallLines.withColumn ⟨100, 657⟩)
      (startCursor (tallLines.withColumn ⟨100, 657⟩)) tallLines.m_text = 2 ∧
    (tallLines.CalcLayout.bind Text.GetContent).map List.length = some 1 := by
  refine ⟨by decide!, by decide!, by decide!, by decide!, by decide!⟩

/-! ## C6: the empty source text -/

theorem GetContent_single_spacing (t : Text) (ch : Character) (h : t.m_text = [ch])
    (hl : ch.lang = LANGUAGE.SPACING) (hauto : t.m_autoNextPage = false) :
    t.GetContent = some [[]] := by
  unfold Text.GetContent
  rw [h]
  simp only [emitLoop]
  by_cases hw : (lineOverflow t t.m_range.x ch || isEOL ch) = true
  · simp [emitStart, emitUnit, hw, writeToFile, hl, pageSplit, hauto, BufferAppend,
      hanndleSpecialChar, insertBeforeFirst]
  · simp [emitStart, emitUnit, hw, writeToFile, hl, BufferAppend]

theorem CalcLayout_single (t : Text) (ch : Character) (h : t.m_text = [ch]) :
    ∃ t1 ch1, t.CalcLayout = some t1 ∧ t1.m_text = [ch1] ∧ ch1.lang = ch.lang ∧
      t1.m_autoNextPage = t.m_autoNextPage := by
  unfold Text.CalcLayout alignRange
  cases ha : t.m_alignment <;>
    simp [h, textHandling, layoutLoop, layoutUnit]

/-- C6 (amended): built from the empty string, the position constructor and
the depth constructor, with alignment DEFAULT or LEFT, give a run that
`CalcLayout` and `GetContent` process without a failing access into zero page
blocks; the indent constructor gives, for every alignment mode and range, a
run of one spacing unit that they process without a failing access into
exactly one page block holding no command. -/
theorem empty_text_layout_emit (pool : CharWidthPool) (fontSize depth charNumIndent : ℚ)
    (pos range : Vector2) (bold : Bool) (u : Uninit) (alignment : ALIGNMENT) :
    ((Text.ofPos pool [] fontSize pos bold).CalcLayout.bind Text.GetContent = some []) ∧
    (((Text.ofPos pool [] fontSize pos bold).SetAlignment ALIGNMENT.DEFAULT range).CalcLayout.bind
      Text.GetContent = some []) ∧
    (((Text.ofPos pool [] fontSize pos bold).SetAlignment ALIGNMENT.LEFT range).CalcLayout.bind
      Text.GetContent = some []) ∧
    ((Text.ofDepth pool [] fontSize depth ALIGNMENT.DEFAULT bold).CalcLayout.bind
      Text.GetContent = some []) ∧
    ((Text.ofDepth pool [] fontSize depth ALIGNMENT.LEFT bold).CalcLayout.bind
      Text.GetContent = some []) ∧
    ((Text.ofIndent pool [] fontSize charNumIndent bold u).CalcLayout.bind
      Text.GetContent = some [[]]) ∧
    (((Text.ofIndent pool [] fontSize charNumIndent bold u).SetAlignment alignment
      range).CalcLayout.bind Text.GetContent = some [[]]) := by
  refine ⟨?_, ?_, ?_, ?_, ?_, ?_, ?_⟩
  · simp [Text.ofPos, Text.CalcLayout, alignRange, textHandling, layoutLoop, buildUnits,
      Text.GetContent]
  · simp [Text.ofPos, Text.SetAlignment, Text.CalcLayout, alignRange, textHandling, layoutLoop,
      buildUnits, Text.GetContent]
  · simp [Text.ofPos, Text.SetAlignment, Text.CalcLayout, alignRange, textHandling, layoutLoop,
      buildUnits, Text.GetContent]
  · simp [Text.ofDepth, Text.CalcLayout, alignRange, textHandling, layoutLoop, buildUnits,
      Text.GetContent]
  · simp [Text.ofDepth, Text.CalcLayout, alignRange, textHandling, layoutLoop, buildUnits,
      Text.GetContent]
  · obtain ⟨t1, ch1, h1, h2, h3, h4⟩ := CalcLayout_single
      (Text.ofIndent pool [] fontSize charNumIndent bold u) _ rfl
    rw [h1]
    exact GetContent_single_spacing t1 ch1 h2 h3 h4
  · obtain ⟨t1, ch1, h1, h2, h3, h4⟩ := CalcLayout_single
      ((Text.ofIndent pool [] fontSize charNumIndent bold u).SetAlignment alignment range) _ rfl
    rw [h1]
    exact GetContent_single_spacing t1 ch1 h2 h3 h4

/-- C6 (counterexample): the indent constructor applied to the empty string
yields one page block, not zero. -/
theorem empty_text_indent_one_block_counterexample :
    ∃ blocks, (Text.ofIndent samplePool [] 12 0 false ⟨0, 0⟩).CalcLayout.bind Text.GetContent
        = some blocks ∧ blocks.length = 1 :=
  ⟨[[]], by decide!, rfl⟩

/-! ## C7: classification -/

/-- C7: for every code point up to 0x10FFFF, `GetLanguage` returns `CHINESE`
exactly on the four CJK ranges, otherwise `ESCAPE_CHAR` exactly on newline,
carriage return and tab, otherwise `SPACING` exactly on the space, otherwise
`ENGLISH`. -/
theorem GetLanguage_classes (u : ℕ) (_hu : u ≤ 0x10FFFF) :
    (GetLanguage u = LANGUAGE.CHINESE ↔ inCJKRanges u) ∧
    (GetLanguage u = LANGUAGE.ESCAPE_CHAR ↔ ¬ inCJKRanges u ∧ (u = 10 ∨ u = 13 ∨ u = 9)) ∧
    (GetLanguage u = LANGUAGE.SPACING ↔
      ¬ inCJKRanges u ∧ ¬ (u = 10 ∨ u = 13 ∨ u = 9) ∧ u = 32) ∧
    (GetLanguage u = LANGUAGE.ENGLISH ↔
      ¬ inCJKRanges u ∧ ¬ (u = 10 ∨ u = 13 ∨ u = 9) ∧ u ≠ 32) := by
  have hc : (inRange u 0x4E00 0x9FA5 || inRange u 0xFF01 0xFF1B ||
      inRange u 0x3001 0x300F || inRange u 0x2018 0x201D) = true ↔ inCJKRanges u := by
    simp [inRange, inCJKRanges, or_assoc]
  unfold GetLanguage
  by_cases h1 : inCJKRanges u
  · rw [if_pos (hc.mpr h1)]; simp [h1]
  · rw [if_neg (fun h => h1 (hc.mp h))]
    by_cases h2 : u = 10 ∨ u = 13 ∨ u = 9
    · rw [if_pos h2]; simp [h1, h2]
    · rw [if_neg h2]
      by_cases h3 : u = 32
      · rw [if_pos h3]; simp [h2, h3]; exact h3 ▸ h1
      · rw [if_neg h3]; simp [h1, h2, h3]

/-- C7 (witness): the classification theorem at the code point 0x4E2D. -/
theorem GetLanguage_classes_witness :
    (0x4E2D ≤ 0x10FFFF) ∧
    ((GetLanguage 0x4E2D = LANGUAGE.CHINESE ↔ inCJKRanges 0x4E2D) ∧
    (GetLanguage 0x4E2D = LANGUAGE.ESCAPE_CHAR ↔
      ¬ inCJKRanges 0x4E2D ∧ (0x4E2D = 10 ∨ 0x4E2D = 13 ∨ 0x4E2D = 9)) ∧
    (GetLanguage 0x4E2D = LANGUAGE.SPACING ↔
      ¬ inCJKRanges 0x4E2D ∧ ¬ (0x4E2D = 10 ∨ 0x4E2D = 13 ∨ 0x4E2D = 9) ∧ 0x4E2D = 32) ∧
    (GetLanguage 0x4E2D = LANGUAGE.ENGLISH ↔
      ¬ inCJKRanges 0x4E2D ∧ ¬ (0x4E2D = 10 ∨ 0x4E2D = 13 ∨ 0x4E2D = 9) ∧ 0x4E2D ≠ 32)) :=
  ⟨by decide, GetLanguage_classes 0x4E2D (by decide)⟩

/-! ## C8: total advance of a constructed unit -/

/-- C8 (amended): the regular constructor gives a Latin and a CJK unit
`length = charLen + extra` with `extra = (charItvlRatio - 1) * fontSize` when
`charItvlRatio > 1` and `0` otherwise, and gives a control unit, whose
`fontSize` field it sets to 0, `length = charLen` whatever the ratio and the
font size passed in. -/
theorem Character_ctor_length (pool : CharWidthPool) (character : ℕ)
    (fontSize charItvlRatio : ℚ) (bold : Bool) :
    ((Character.ctor pool character LANGUAGE.ENGLISH fontSize charItvlRatio bold).length =
      (Character.ctor pool character LANGUAGE.ENGLISH fontSize charItvlRatio bold).charLen +
        (if charItvlRatio > 1 then (charItvlRatio - 1) * fontSize else 0)) ∧
    ((Character.ctor pool character LANGUAGE.CHINESE fontSize charItvlRatio bold).length =
      (Character.ctor pool character LANGUAGE.CHINESE fontSize charItvlRatio bold).charLen +
        (if charItvlRatio > 1 then (charItvlRatio - 1) * fontSize else 0)) ∧
    ((Character.ctor pool character LANGUAGE.ESCAPE_CHAR fontSize charItvlRatio bold).length =
      (Character.ctor pool character LANGUAGE.ESCAPE_CHAR fontSize charItvlRatio bold).charLen ∧
     (Character.ctor pool character LANGUAGE.ESCAPE_CHAR fontSize charItvlRatio bold).fontSize
      = 0) := by
  refine ⟨?_, ?_, ?_, ?_⟩
  · simp [Character.ctor, interval]
  · simp [Character.ctor, interval]
  · simp only [Character.ctor]; split_ifs <;> rfl
  · simp only [Character.ctor]; split_ifs <;> rfl

/-- C8 (counterexample): a tab built with font size 12 and interval ratio 2 is
a control unit with `charLen = 24` and `length = 24`, not
`charLen + (2 - 1) * 12 = 36`; the same holds for a newline, with
`charLen = length = 0`, not `0 + (2 - 1) * 12`. -/
theorem Character_ctor_length_control_counterexample :
    GetLanguage 9 = LANGUAGE.ESCAPE_CHAR ∧
    (Character.ctor samplePool 9 (GetLanguage 9) 12 2 false).charLen = 24 ∧
    (Character.ctor samplePool 9 (GetLanguage 9) 12 2 false).length = 24 ∧
    (Character.ctor samplePool 9 (GetLanguage 9) 12 2 false).length ≠
      (Character.ctor samplePool 9 (GetLanguage 9) 12 2 false).charLen +
        (if (2 : ℚ) > 1 then (2 - 1) * 12 else 0) ∧
    GetLanguage 10 = LANGUAGE.ESCAPE_CHAR ∧
    (Character.ctor samplePool 10 (GetLanguage 10) 12 2 false).length ≠
      (Character.ctor samplePool 10 (GetLanguage 10) 12 2 false).charLen +
        (if (2 : ℚ) > 1 then (2 - 1) * 12 else 0) := by
  decide!

/-! ## C9: the total advance is never below the raw advance -/

theorem interval_nonneg (r fs : ℚ) (h : 0 ≤ fs) : 0 ≤ interval r fs := by
  unfold interval
  split_ifs with hr
  · exact mul_nonneg (by linarith) h
  · exact le_refl _

theorem ctor_fontSize_nonneg (pool : CharWidthPool) (c : ℕ) (lang : LANGUAGE) (fs r : ℚ)
    (b : Bool) (h : 0 ≤ fs) : 0 ≤ (Character.ctor pool c lang fs r b).fontSize := by
  cases lang <;> simp only [Character.ctor] <;> try split_ifs
  all_goals first | exact h | exact le_refl _

theorem ctor_charLen_le_length (pool : CharWidthPool) (c : ℕ) (lang : LANGUAGE) (fs r : ℚ)
    (b : Bool) (h : 0 ≤ fs) :
    (Character.ctor pool c lang fs r b).charLen ≤ (Character.ctor pool c lang fs r b).length := by
  have hi := interval_nonneg r fs h
  cases lang <;> simp only [Character.ctor] <;> try split_ifs
  all_goals first | exact le_refl _ | linarith

theorem buildUnits_inv (pool : CharWidthPool) (text : List ℕ) (fs r : ℚ) (b : Bool)
    (h : 0 ≤ fs) : ∀ ch ∈ buildUnits pool text fs r b, 0 ≤ ch.fontSize ∧ ch.charLen ≤ ch.length := by
  intro ch hch
  simp only [buildUnits, List.mem_map] at hch
  obtain ⟨c, _, rfl⟩ := hch
  exact ⟨ctor_fontSize_nonneg pool c _ fs r b h, ctor_charLen_le_length pool c _ fs r b h⟩

theorem Ctor_run_inv (pool : CharWidthPool) (c : Ctor) (h : c.fontNonneg = true) :
    AdvanceInv (c.run pool) := by
  cases c with
  | plain =>
    refine ⟨by norm_num [Ctor.run, Text.default], ?_⟩
    intro ch hch
    simp [Ctor.run, Text.default] at hch
  | indent text fs n b u =>
    simp only [Ctor.fontNonneg, Bool.and_eq_true, decide_eq_true_eq] at h
    refine ⟨h.1, ?_⟩
    intro ch hch
    simp only [Ctor.run, Text.ofIndent, List.mem_cons] at hch
    rcases hch with rfl | hch
    · exact ⟨h.2, le_refl _⟩
    · exact buildUnits_inv pool text fs 1 b h.1 ch hch
  | pos text fs p b =>
    simp only [Ctor.fontNonneg, decide_eq_true_eq] at h
    exact ⟨h, buildUnits_inv pool text fs 1 b h⟩
  | depth text fs d a b =>
    simp only [Ctor.fontNonneg, decide_eq_true_eq] at h
    exact ⟨h, buildUnits_inv pool text fs 1 b h⟩

theorem BuildOp_apply_inv (pool : CharWidthPool) (t : Text) (op : BuildOp)
    (ht : AdvanceInv t) (h : op.fontNonneg = true) : AdvanceInv (op.apply pool t) := by
  obtain ⟨h0, hall⟩ := ht
  cases op with
  | Append text b =>
    refine ⟨h0, ?_⟩
    intro ch hch
    simp only [BuildOp.apply, Text.Append, List.mem_append] at hch
    rcases hch with hch | hch
    · exact hall ch hch
    · exact buildUnits_inv pool text _ _ b h0 ch hch
  | Space s u =>
    simp only [BuildOp.fontNonneg, decide_eq_true_eq] at h
    refine ⟨h0, ?_⟩
    intro ch hch
    simp only [BuildOp.apply, Text.Space, List.mem_append, List.mem_singleton] at hch
    rcases hch with hch | rfl
    · exact hall ch hch
    · exact ⟨h, le_refl _⟩
  | SetIndent n u =>
    simp only [BuildOp.fontNonneg, decide_eq_true_eq] at h
    refine ⟨h0, ?_⟩
    intro ch hch
    simp only [BuildOp.apply, Text.SetIndent, List.mem_append, List.mem_singleton] at hch
    rcases hch with hch | rfl
    · exact hall ch hch
    · exact ⟨h, le_refl _⟩
  | NextLine =>
    refine ⟨h0, ?_⟩
    intro ch hch
    simp only [BuildOp.apply, Text.NextLine, List.mem_append, List.mem_singleton] at hch
    rcases hch with hch | rfl
    · exact hall ch hch
    · exact ⟨ctor_fontSize_nonneg _ _ _ _ _ _ (le_refl _),
        ctor_charLen_le_length _ _ _ _ _ _ (le_refl _)⟩
  | SetFontSize fs =>
    simp only [BuildOp.fontNonneg, decide_eq_true_eq] at h
    refine ⟨h, ?_⟩
    intro ch hch
    simp only [BuildOp.apply, Text.SetFontSize, List.mem_map] at hch
    obtain ⟨c, hc, rfl⟩ := hch
    exact ⟨h, (hall c hc).2⟩
  | SetCharInterval r =>
    refine ⟨h0, ?_⟩
    intro ch hch
    simp only [BuildOp.apply, Text.SetCharInterval, List.mem_map] at hch
    obtain ⟨c, hc, rfl⟩ := hch
    refine ⟨(hall c hc).1, ?_⟩
    have := interval_nonneg r c.fontSize (hall c hc).1
    simp only
    linarith
  | SetAutoNextPage flag => exact ⟨h0, hall⟩
  | SetDepth d => exact ⟨h0, hall⟩
  | SetPosition p => exact ⟨h0, hall⟩
  | SetAlignment a r => exact ⟨h0, hall⟩
  | SetAlignmentAt d a r => exact ⟨h0, hall⟩
  | SetLineInterval l => exact ⟨h0, hall⟩

theorem foldl_apply_inv (pool : CharWidthPool) (ops : List BuildOp) (t : Text)
    (ht : AdvanceInv t) (h : ∀ op ∈ ops, op.fontNonneg = true) :
    AdvanceInv (ops.foldl (BuildOp.apply pool) t) := by
  induction ops generalizing t with
  | nil => exact ht
  | cons op ops ih =>
    simp only [List.foldl_cons]
    exact ih _ (BuildOp_apply_inv pool t op ht (h op (List.mem_cons_self _ _)))
      (fun o ho => h o (List.mem_cons_of_mem _ ho))

/-- C9 (amended): `charLen ≤ length` holds for every unit of every run built
by a constructor followed by any sequence of `Append`, `Space`, `SetIndent`,
`NextLine`, `SetFontSize` and `SetCharInterval` (and of the setters that do
not touch the units), provided no font size is negative: the `fontSize`
arguments of the constructor and of `SetFontSize`, and the value held by the
uninitialised `fontSize` of each spacing unit. -/
theorem build_charLen_le_length (pool : CharWidthPool) (c : Ctor) (ops : List BuildOp)
    (hc : c.fontNonneg = true) (hops : ∀ op ∈ ops, op.fontNonneg = true) :
    ∀ ch ∈ (build pool c ops).m_text, ch.charLen ≤ ch.length :=
  fun ch hch => ((foldl_apply_inv pool ops _ (Ctor_run_inv pool c hc) hops).2 ch hch).2

/-- C9 (witness): the advance theorem at a run built with seven calls. -/
theorem build_charLen_le_length_witness :
    mixedCtor.fontNonneg = true ∧
    (∀ op ∈ mixedOps, op.fontNonneg = true) ∧
    ∀ ch ∈ (build samplePool mixedCtor mixedOps).m_text, ch.charLen ≤ ch.length :=
  ⟨by decide!, by decide!,
    build_charLen_le_length samplePool mixedCtor mixedOps (by decide!) (by decide!)⟩

/-- C9 (counterexample): after `SetFontSize(-12)` and `SetCharInterval(2)`
an appended CJK unit has `charLen = -12` and `length = -24`; and a spacing
unit whose uninitialised `fontSize` holds `-1` gets `length = -1` below its
`charLen = 0` from `SetCharInterval(2)`. -/
theorem build_negative_fontSize_counterexample :
    ((build samplePool Ctor.plain
        [BuildOp.SetFontSize (-12), BuildOp.SetCharInterval 2,
          BuildOp.Append [0x4E2D] false]).m_text.map (fun ch => (ch.charLen, ch.length))
        = [(-12, -24)]) ∧
    ((build samplePool (Ctor.indent [] 12 0 false ⟨-1, 0⟩)
        [BuildOp.SetCharInterval 2]).m_text.map (fun ch => (ch.charLen, ch.length))
        = [(0, -1)]) := by
  decide!

/-! ## C10: centring -/

theorem buildUnits_noInterval (pool : CharWidthPool) (text : List ℕ) (fs r : ℚ) (b : Bool)
    (h : r ≤ 1) : ∀ ch ∈ buildUnits pool text fs r b, ch.length = ch.charLen := by
  intro ch hch
  simp only [buildUnits, List.mem_map] at hch
  obtain ⟨c, _, rfl⟩ := hch
  exact ctor_length_of_le_one pool c _ fs r b h

theorem Ctor_run_noInterval (pool : CharWidthPool) (c : Ctor) : NoIntervalInv (c.run pool) := by
  intro _ ch hch
  cases c with
  | plain => simp [Ctor.run, Text.default] at hch
  | indent text fs n b u =>
    simp only [Ctor.run, Text.ofIndent, List.mem_cons] at hch
    rcases hch with rfl | hch
    · rfl
    · exact buildUnits_noInterval pool text fs 1 b (le_refl _) ch hch
  | pos text fs p b => exact buildUnits_noInterval pool text fs 1 b (le_refl _) ch hch
  | depth text fs d a b => exact buildUnits_noInterval pool text fs 1 b (le_refl _) ch hch

theorem BuildOp_apply_noInterval (pool : CharWidthPool) (t : Text) (op : BuildOp)
    (ht : NoIntervalInv t) : NoIntervalInv (op.apply pool t) := by
  cases op with
  | Append text b =>
    intro hr ch hch
    simp only [BuildOp.apply, Text.Append, List.mem_append] at hch
    rcases hch with hch | hch
    · exact ht hr ch hch
    · exact buildUnits_noInterval pool text _ _ b hr ch hch
  | Space s u =>
    intro hr ch hch
    simp only [BuildOp.apply, Text.Space, List.mem_append, List.mem_singleton] at hch
    rcases hch with hch | rfl
    · exact ht hr ch hch
    · rfl
  | SetIndent n u =>
    intro hr ch hch
    simp only [BuildOp.apply, Text.SetIndent, List.mem_append, List.mem_singleton] at hch
    rcases hch with hch | rfl
    · exact ht hr ch hch
    · rfl
  | NextLine =>
    intro hr ch hch
    simp only [BuildOp.apply, Text.NextLine, List.mem_append, List.mem_singleton] at hch
    rcases hch with hch | rfl
    · exact ht hr ch hch
    · rfl
  | SetFontSize fs =>
    intro hr ch hch
    simp only [BuildOp.apply, Text.SetFontSize, List.mem_map] at hch
    obtain ⟨c, hc, rfl⟩ := hch
    exact ht hr c hc
  | SetCharInterval r =>
    intro hr ch hch
    simp only [BuildOp.apply, Text.SetCharInterval, List.mem_map] at hch
    obtain ⟨c, hc, rfl⟩ := hch
    simp only [BuildOp.apply, Text.SetCharInterval] at hr
    simp only [interval_of_le_one r c.fontSize hr, add_zero]
  | SetAutoNextPage flag => exact ht
  | SetDepth d => exact ht
  | SetPosition p => exact ht
  | SetAlignment a r => exact ht
  | SetAlignmentAt d a r => exact ht
  | SetLineInterval l => exact ht

theorem foldl_apply_noInterval (pool : CharWidthPool) (ops : List BuildOp) (t : Text)
    (ht : NoIntervalInv t) : NoIntervalInv (ops.foldl (BuildOp.apply pool) t) := by
  induction ops generalizing t with
  | nil => exact ht
  | cons op ops ih => exact ih _ (BuildOp_apply_noInterval pool t op ht)

theorem build_noInterval (pool : CharWidthPool) (c : Ctor) (ops : List BuildOp) :
    NoIntervalInv (build pool c ops) :=
  foldl_apply_noInterval pool ops _ (Ctor_run_noInterval pool c)

theorem layoutLoop_foldl_length (t : Text) (cur : Cursor) (xs : List Character) (acc : ℚ) :
    (layoutLoop t cur xs).2.foldl (fun length ch => length + ch.length) acc =
      xs.foldl (fun length ch => length + ch.length) acc := by
  induction xs generalizing cur acc with
  | nil => rfl
  | cons ch xs ih =>
    simp only [layoutLoop, List.foldl_cons]
    exact ih _ _

theorem placeCursor_start_x (t : Text) (ch : Character) :
    (placeCursor t (startCursor t) ch).x = t.m_range.x := by
  unfold placeCursor
  split_ifs
  · exact nextLine_x t _
  · rfl

theorem textHandling_first (t : Text) (ch : Character) (rest : List Character)
    (h : t.m_text = ch :: rest) :
    ∃ first, (textHandling t).m_text.head? = some first ∧ first.position.x = t.m_range.x := by
  simp only [textHandling, h, layoutLoop]
  exact ⟨_, rfl, placeCursor_start_x t ch⟩

theorem textHandling_GetLength (t : Text) : (textHandling t).GetLength = t.GetLength := by
  simp only [Text.GetLength, textHandling]
  exact layoutLoop_foldl_length t _ _ 0

/-- C10: for a non-empty run built by a constructor and any calls of the
building and configuring operations, whose interval ratio is 1, centred in
the range `[L, R]`, `CalcLayout` returns and the first unit's x plus half of
the sum of all total advances equals `(L + R) / 2`. Neither equal advances nor
fitting on one line is needed for the equation: the first unit is always
placed at the left bound of the computed column. -/
theorem CalcLayout_center_midpoint (pool : CharWidthPool) (c : Ctor) (ops : List BuildOp)
    (L R : ℚ)
    (hratio : (build pool c ops).m_charItvlRatio = 1)
    (hne : (build pool c ops).m_text ≠ []) :
    ∃ t1 first, ((build pool c ops).SetAlignment ALIGNMENT.CENTER ⟨L, R⟩).CalcLayout = some t1 ∧
      t1.m_text.head? = some first ∧
      first.position.x + t1.GetLength / 2 = (L + R) / 2 := by
  have hinv := build_noInterval pool c ops (le_of_eq hratio)
  generalize build pool c ops = T at hinv hne ⊢
  cases htxt : T.m_text with
  | nil => exact absurd htxt hne
  | cons ch rest =>
    obtain ⟨back, hback⟩ : ∃ back, T.m_text.getLast? = some back :=
      ⟨_, List.getLast?_eq_getLast _ (by rw [htxt]; exact List.cons_ne_nil _ _)⟩
    have hbl : back.length = back.charLen := hinv back (List.mem_of_getLast?_eq_some hback)
    simp only [Text.CalcLayout, alignRange, Text.SetAlignment, hback, Option.map_some',
      Option.some.injEq, hbl, sub_self, zero_div, add_zero]
    have hfirst := textHandling_first
      (Text.withColumn
        { T with m_alignment := ALIGNMENT.CENTER, m_range := ⟨L, R⟩ }
        ⟨(L + R) / 2 - Text.GetLength
            { T with m_alignment := ALIGNMENT.CENTER, m_range := ⟨L, R⟩ } / 2,
          ((PDF_WIDTH - PDF_PADDING : ℕ) : ℚ)⟩) ch rest htxt
    obtain ⟨first, hf1, hf2⟩ := hfirst
    refine ⟨_, first, rfl, hf1, ?_⟩
    rw [hf2, textHandling_GetLength]
    simp only [withColumn_m_range, withColumn_GetLength, Text.GetLength, withColumn_m_text]
    ring

/-- C10 (witness): the centring theorem at `abc`, font size 12, range
[100, 300]; the run is laid out on one line. -/
theorem CalcLayout_center_midpoint_witness :
    (build samplePool abcCtor []).m_charItvlRatio = 1 ∧
    (build samplePool abcCtor []).m_text ≠ [] ∧
    (∃ t1 first,
      ((build samplePool abcCtor []).SetAlignment ALIGNMENT.CENTER ⟨100, 300⟩).CalcLayout
        = some t1 ∧
      t1.m_text.head? = some first ∧
      first.position.x + t1.GetLength / 2 = (100 + 300) / 2) ∧
    (((build samplePool abcCtor []).SetAlignment ALIGNMENT.CENTER ⟨100, 300⟩).CalcLayout).map
      (fun t1 => t1.m_lineCount) = some 0 :=
  ⟨by decide!, by decide!,
    CalcLayout_center_midpoint samplePool abcCtor [] 100 300 (by decide!) (by decide!),
    by decide!⟩

/-! ## C11: font size of the final span -/

/-- C11 (the code at the failing input): in the run `a`, newline, `b` the unit
`b` has font size 12, and its command, the final span of the run, is emitted
with font size 0, the `fontSize` of the newline unit before it. -/
theorem GetContent_final_span_fontSize :
    (twoLines.CalcLayout.map fun t => t.m_text.map fun ch => ch.fontSize) = some [12, 0, 12] ∧
    twoLines.CalcLayout.bind Text.GetContent =
      some [[⟨"TmRm", 12, 100, 900, 0, ['(', 'a', ')']⟩,
             ⟨"TmRm", 0, 100, 4428 / 5, 0, ['(', 'b', ')']⟩]] := by
  decide!

/-! ## C12: interval operand for a ratio below one -/

/-- C12 (the code at the failing input): after `SetCharInterval(0.5)` every
unit of `ab` has `length = charLen`, and the command is emitted with the
interval operand `(0.5 - 1) * 12 = -6`. -/
theorem GetContent_interval_below_one :
    tightRun.m_charItvlRatio = 1 / 2 ∧
    (∀ ch ∈ tightRun.m_text, ch.length = ch.charLen) ∧
    tightRun.CalcLayout.bind Text.GetContent =
      some [[⟨"TmRm", 12, 100, 900, -6, ['(', 'a', 'b', ')']⟩]] := by
  decide!

/-! ## C13: Latin units without a width entry -/

/-- C13 (amended): building a Latin unit is a total function, and for every
Latin-classified code point whose low byte, the key `(char)character` of the
lookup, has no entry in the width table, the unit's `charLen` is 0 for every
font size; this covers every code point when the table is empty. -/
theorem Latin_charLen_without_entry (pool : CharWidthPool) (character : ℕ)
    (fontSize charItvlRatio : ℚ) (bold : Bool)
    (hl : GetLanguage character = LANGUAGE.ENGLISH)
    (h : pool (character % 256) = none) :
    (Character.ctor pool character (GetLanguage character) fontSize charItvlRatio bold).charLen
      = 0 ∧
    (Character.ctor (fun _ => none) character (GetLanguage character) fontSize charItvlRatio
      bold).charLen = 0 := by
  simp [hl, Character.ctor, CharWidthPool.at, h]

/-- C13 (witness): the width theorem at the code point 200 with the sample table. -/
theorem Latin_charLen_without_entry_witness :
    GetLanguage 200 = LANGUAGE.ENGLISH ∧ samplePool (200 % 256) = none ∧
    ((Character.ctor samplePool 200 (GetLanguage 200) 12 1 false).charLen = 0 ∧
     (Character.ctor (fun _ => none) 200 (GetLanguage 200) 12 1 false).charLen = 0) :=
  ⟨by decide, by decide, Latin_charLen_without_entry samplePool 200 12 1 false (by decide)
    (by decide)⟩

/-- C13 (counterexample): the code point 0x141 is Latin-classified, lies
outside 33..125 and has no entry of its own, yet its unit gets the width
stored for its low byte 0x41: `charLen = 8 * (12 / 16) * 1.05 = 6.3`. -/
theorem Latin_charLen_low_byte_counterexample :
    GetLanguage 0x141 = LANGUAGE.ENGLISH ∧ ¬ (33 ≤ 0x141 ∧ 0x141 ≤ 125) ∧
    samplePool 0x141 = none ∧
    (Character.ctor samplePool 0x141 (GetLanguage 0x141) 12 1 false).charLen = 63 / 10 := by
  decide!

/-! ## C14: ranges whose right bound is not above the left bound -/

/-- C14 (amended): `SetAlignment` performs no check: every range, also one whose
right bound is not above its left bound, is stored unchanged together with the
alignment, the units are untouched, and `CalcLayout` then lays the run out
with it: with RIGHT the stored right bound stays the right bound of the
column and the left bound is derived from it, with CENTER the left bound is
derived from the midpoint of the stored range. -/
theorem SetAlignment_accepts_every_range (t : Text) (alignment : ALIGNMENT) (range : Vector2)
    (hne : t.m_text ≠ []) :
    (t.SetAlignment alignment range).m_range = range ∧
    (t.SetAlignment alignment range).m_alignment = alignment ∧
    (t.SetAlignment alignment range).m_text = t.m_text ∧
    ∃ t1 back, (t.SetAlignment alignment range).CalcLayout = some t1 ∧
      t.m_text.getLast? = some back ∧
      (alignment = ALIGNMENT.RIGHT →
        t1.m_range = ⟨range.y - t.GetLength + (back.length - back.charLen), range.y⟩) ∧
      (alignment = ALIGNMENT.CENTER →
        t1.m_range.x =
          (range.x + range.y) / 2 - t.GetLength / 2 + (back.length - back.charLen) / 2) := by
  refine ⟨rfl, rfl, rfl, ?_⟩
  obtain ⟨back, hback⟩ : ∃ back, t.m_text.getLast? = some back :=
    ⟨_, List.getLast?_eq_getLast _ hne⟩
  cases alignment <;>
    simp [Text.CalcLayout, alignRange, Text.SetAlignment, hback, textHandling, Text.withColumn,
      Text.GetLength]

/-- C14 (witness): the theorem at the run of the single unit `a`, right aligned
with the range {300, 100}. -/
theorem SetAlignment_accepts_every_range_witness :
    singleLetter.m_text ≠ [] ∧
    ((singleLetter.SetAlignment ALIGNMENT.RIGHT ⟨300, 100⟩).m_range = ⟨300, 100⟩ ∧
    (singleLetter.SetAlignment ALIGNMENT.RIGHT ⟨300, 100⟩).m_alignment = ALIGNMENT.RIGHT ∧
    (singleLetter.SetAlignment ALIGNMENT.RIGHT ⟨300, 100⟩).m_text = singleLetter.m_text ∧
    ∃ t1 back, (singleLetter.SetAlignment ALIGNMENT.RIGHT ⟨300, 100⟩).CalcLayout = some t1 ∧
      singleLetter.m_text.getLast? = some back ∧
      (ALIGNMENT.RIGHT = ALIGNMENT.RIGHT →
        t1.m_range = ⟨(⟨300, 100⟩ : Vector2).y - singleLetter.GetLength
          + (back.length - back.charLen), (⟨300, 100⟩ : Vector2).y⟩) ∧
      (ALIGNMENT.RIGHT = ALIGNMENT.CENTER →
        t1.m_range.x =
          ((⟨300, 100⟩ : Vector2).x + (⟨300, 100⟩ : Vector2).y) / 2 - singleLetter.GetLength / 2
            + (back.length - back.charLen) / 2)) :=
  ⟨by decide!, SetAlignment_accepts_every_range singleLetter ALIGNMENT.RIGHT ⟨300, 100⟩
    (by decide!)⟩

/-- C14 (counterexample): the range {300, 100}, right bound below left bound,
is accepted by `SetAlignment`, and `CalcLayout` returns the run laid out with
100 as the right bound of its column. -/
theorem SetAlignment_inverted_range_counterexample :
    invertedRun.m_range = ⟨300, 100⟩ ∧
    (invertedRun.CalcLayout.map fun t => (t.m_range, t.m_text.map fun ch => ch.position)) =
      some (⟨437 / 5, 100⟩, [⟨437 / 5, 900⟩, ⟨937 / 10, 900⟩]) := by
  decide!

/-! ## C15: raw advance given by the constructor -/

/-- C15: the regular constructor gives `charLen = fontSize` to a CJK unit,
`charLen = 0.3 * fontSize` to a space unit, `charLen = 2 * fontSize` and
`fontSize = 0` to a tab, and `charLen = 0` and `fontSize = 0` to every other
control character, for every font size, interval ratio and bold flag. -/
theorem Character_ctor_charLen (pool : CharWidthPool) (character : ℕ)
    (fontSize charItvlRatio : ℚ) (bold : Bool) :
    (Character.ctor pool character LANGUAGE.CHINESE fontSize charItvlRatio bold).charLen
      = fontSize ∧
    (Character.ctor pool character LANGUAGE.SPACING fontSize charItvlRatio bold).charLen
      = (3 / 10) * fontSize ∧
    ((Character.ctor pool 9 LANGUAGE.ESCAPE_CHAR fontSize charItvlRatio bold).charLen
      = 2 * fontSize ∧
     (Character.ctor pool 9 LANGUAGE.ESCAPE_CHAR fontSize charItvlRatio bold).fontSize = 0) ∧
    (character ≠ 9 →
      (Character.ctor pool character LANGUAGE.ESCAPE_CHAR fontSize charItvlRatio bold).charLen
        = 0 ∧
      (Character.ctor pool character LANGUAGE.ESCAPE_CHAR fontSize charItvlRatio bold).fontSize
        = 0) := by
  refine ⟨rfl, rfl, ⟨?_, ?_⟩, ?_⟩
  · simp [Character.ctor]
  · simp [Character.ctor]
  · intro h
    simp [Character.ctor, h]

/-- C15 (witness): the constructor theorem at the newline, font size 12. -/
theorem Character_ctor_charLen_witness :
    (Character.ctor samplePool 10 LANGUAGE.CHINESE 12 2 true).charLen = 12 ∧
    (Character.ctor samplePool 10 LANGUAGE.SPACING 12 2 true).charLen = (3 / 10) * 12 ∧
    ((Character.ctor samplePool 9 LANGUAGE.ESCAPE_CHAR 12 2 true).charLen = 2 * 12 ∧
     (Character.ctor samplePool 9 LANGUAGE.ESCAPE_CHAR 12 2 true).fontSize = 0) ∧
    (10 ≠ 9 →
      (Character.ctor samplePool 10 LANGUAGE.ESCAPE_CHAR 12 2 true).charLen = 0 ∧
      (Character.ctor samplePool 10 LANGUAGE.ESCAPE_CHAR 12 2 true).fontSize = 0) :=
  Character_ctor_charLen samplePool 10 12 2 true

/-! ## C16: anchoring of the commands -/

theorem BufferAppend_eq (ch : Character) (σ : EmitState) :
    BufferAppend ch σ = { σ with buffer := σ.buffer ++ payloadOf ch } := by
  unfold BufferAppend payloadOf
  split <;> simp

theorem payloadOf_of_not_visible (ch : Character) (h : visible ch = false) :
    payloadOf ch = [] := by
  unfold visible at h
  simp only [decide_eq_false_iff_not, not_or] at h
  unfold payloadOf
  split
  · exact absurd ‹_› h.1
  · exact absurd ‹_› h.2
  · rfl

theorem writeToFile_flush (t : Text) (pv ch : Character) (σ : EmitState) (spans : List Span)
    (cur : List Character)
    (hc : σ.done.flatten ++ σ.page = spans.flatMap (Span.draw t))
    (hb : σ.buffer = cur.flatMap payloadOf)
    (hcur : ∀ first rest, cur = first :: rest →
      visible first = true ∧ first.position = σ.prePos ∧ first.lang = σ.preLang)
    (hv : (σ.preLang = LANGUAGE.CHINESE ∨ σ.preLang = LANGUAGE.ENGLISH) → cur ≠ []) :
    ∃ σ1, writeToFile t (some pv) ch σ = some σ1 ∧
      σ1.done.flatten ++ σ1.page =
        (spans ++ (if cur = [] then [] else [Span.mk cur σ.preBold pv.fontSize])).flatMap (Span.draw t) ∧
      σ1.buffer = [] ∧ σ1.preLang = ch.lang ∧ σ1.prePos = ch.position ∧ σ1.xInc = σ.xInc ∧
      (σ1.preBold = ch.bold ∨ σ1.preBold = σ.preBold) := by
  have hnv : ¬ (σ.preLang = LANGUAGE.CHINESE ∨ σ.preLang = LANGUAGE.ENGLISH) → cur = [] := by
    intro h
    cases hcur' : cur with
    | nil => rfl
    | cons first rest =>
      obtain ⟨h1, _, h3⟩ := hcur first rest hcur'
      simp only [visible, decide_eq_true_eq, h3] at h1
      exact absurd h1 h
  unfold writeToFile
  by_cases hs : σ.preLang = LANGUAGE.SPACING
  · have hnil : cur = [] := hnv (by rw [hs]; simp)
    rw [if_pos hs]
    refine ⟨_, rfl, ?_, ?_, rfl, rfl, rfl, Or.inr rfl⟩
    · simp [hnil, hc]
    · simp [hb, hnil, hanndleSpecialChar, insertBeforeFirst]
  · rw [if_neg hs]
    by_cases hw : σ.preLang = LANGUAGE.CHINESE ∨ σ.preLang = LANGUAGE.ENGLISH
    · obtain ⟨first, rest, hcur'⟩ := List.exists_cons_of_ne_nil (hv hw)
      obtain ⟨_, h2, h3⟩ := hcur first rest hcur'
      subst hcur'
      refine ⟨_, rfl, ?_, rfl, rfl, rfl, rfl, Or.inl rfl⟩
      simp only [hw, if_true, List.flatMap_append, ← hc, List.flatMap_cons, List.flatMap_nil,
        List.append_nil, reduceCtorEq, if_false, Span.draw, h2, h3, fontOf, delimit,
        ← hb, List.append_assoc]
    · have hnil := hnv hw
      refine ⟨_, rfl, ?_, rfl, rfl, rfl, rfl, Or.inl rfl⟩
      simp [hw, hnil, hc]

theorem SpanInv_flush (B : Prop) (t : Text) (pv ch : Character) (σ : EmitState)
    (spans : List Span) (cur : List Character) (h : SpanInv B t σ spans cur)
    (hB : ch.bold = true → B) :
    ∃ (σ1 : EmitState) (spans1 : List Span), writeToFile t (some pv) ch σ = some σ1 ∧
      σ1.done.flatten ++ σ1.page = spans1.flatMap (Span.draw t) ∧
      spans1.flatMap (fun s => s.units) = spans.flatMap (fun s => s.units) ++ cur ∧
      σ1.buffer = [] ∧ σ1.preLang = ch.lang ∧ σ1.prePos = ch.position ∧ σ1.xInc = σ.xInc ∧
      (σ1.preBold = true → B) ∧ (∀ s ∈ spans1, s.bold = true → B) ∧
      (∀ s ∈ spans1, s.units ≠ []) := by
  obtain ⟨σ1, h1, hc, hb, hl, hp, hx, hbold⟩ :=
    writeToFile_flush t pv ch σ spans cur h.cmds h.buf h.anchor h.pending
  refine ⟨σ1, _, h1, hc, ?_, hb, hl, hp, hx, ?_, ?_, ?_⟩
  · by_cases hn : cur = []
    · simp [hn]
    · simp [hn]
  · intro hb1
    rcases hbold with hb2 | hb2
    · exact hB (hb2 ▸ hb1)
    · exact h.bold (hb2 ▸ hb1)
  · intro s hs
    rw [List.mem_append] at hs
    rcases hs with hs | hs
    · exact h.spanBold s hs
    · by_cases hn : cur = []
      · simp [hn] at hs
      · simp only [hn, if_false, List.mem_singleton] at hs
        subst hs
        exact h.bold
  · intro s hs
    rw [List.mem_append] at hs
    rcases hs with hs | hs
    · exact h.spanUnits s hs
    · by_cases hn : cur = []
      · simp [hn] at hs
      · simp only [hn, if_false, List.mem_singleton] at hs
        subst hs
        exact hn

theorem SpanInv_fresh_append (B : Prop) (t : Text) (ch : Character) (σ : EmitState)
    (spans : List Span) (x : ℚ)
    (hc : σ.done.flatten ++ σ.page = spans.flatMap (Span.draw t))
    (hb : σ.buffer = []) (hl : σ.preLang = ch.lang) (hp : σ.prePos = ch.position)
    (hbold : σ.preBold = true → B) (hsb : ∀ s ∈ spans, s.bold = true → B)
    (hsu : ∀ s ∈ spans, s.units ≠ []) :
    SpanInv B t { BufferAppend ch σ with xInc := x } spans (if visible ch then [ch] else []) := by
  rw [BufferAppend_eq]
  by_cases hv : visible ch = true
  · refine ⟨hc, ?_, ?_, ?_, hbold, hsb, hsu⟩
    · simp [hv, hb]
    · intro first rest hfr
      simp only [hv, if_true, List.cons.injEq] at hfr
      obtain ⟨rfl, _⟩ := hfr
      exact ⟨hv, hp.symm, hl.symm⟩
    · intro _
      simp [hv]
  · have hv' : visible ch = false := by simpa using hv
    refine ⟨hc, ?_, ?_, ?_, hbold, hsb, hsu⟩
    · simp [hv', hb, payloadOf_of_not_visible ch hv']
    · intro first rest hfr
      simp [hv'] at hfr
    · intro hvis
      exfalso
      simp only [visible, decide_eq_false_iff_not] at hv'
      exact hv' (hl ▸ hvis)

theorem SpanInv_xInc (B : Prop) (t : Text) (σ : EmitState) (spans : List Span)
    (cur : List Character) (x : ℚ) (h : SpanInv B t σ spans cur) :
    SpanInv B t { σ with xInc := x } spans cur :=
  ⟨h.cmds, h.buf, h.anchor, h.pending, h.bold, h.spanBold, h.spanUnits⟩

theorem SpanInv_append (B : Prop) (t : Text) (ch : Character) (σ : EmitState)
    (spans : List Span) (cur : List Character) (h : SpanInv B t σ spans cur)
    (hl : σ.preLang = ch.lang) :
    SpanInv B t (BufferAppend ch σ) spans (cur ++ if visible ch then [ch] else []) := by
  rw [BufferAppend_eq]
  by_cases hv : visible ch = true
  · have hvis : σ.preLang = LANGUAGE.CHINESE ∨ σ.preLang = LANGUAGE.ENGLISH := by
      rw [hl]; simpa [visible] using hv
    obtain ⟨f, r, hfr⟩ := List.exists_cons_of_ne_nil (h.pending hvis)
    refine ⟨h.cmds, ?_, ?_, ?_, h.bold, h.spanBold, h.spanUnits⟩
    · simp [hv, h.buf]
    · intro first rest hfr'
      simp only [hv, if_true, hfr, List.cons_append, List.cons.injEq] at hfr'
      obtain ⟨rfl, _⟩ := hfr'
      exact h.anchor f r hfr
    · intro _
      simp [hv]
  · have hv' : visible ch = false := by simpa using hv
    simp only [hv', Bool.false_eq_true, if_false, List.append_nil]
    refine ⟨h.cmds, ?_, h.anchor, h.pending, h.bold, h.spanBold, h.spanUnits⟩
    simp [h.buf, payloadOf_of_not_visible ch hv']

theorem pageSplit_prev_some (t : Text) (pv ch : Character) (σ : EmitState) :
    ∃ σ1, pageSplit t (some pv) ch σ = some σ1 ∧
      σ1.done.flatten ++ σ1.page = σ.done.flatten ++ σ.page ∧
      σ1.buffer = σ.buffer ∧ σ1.preLang = σ.preLang ∧ σ1.prePos = σ.prePos ∧
      σ1.preBold = σ.preBold ∧ σ1.xInc = σ.xInc := by
  unfold pageSplit
  by_cases ha : t.m_autoNextPage = true
  · rw [if_pos ha]
    by_cases hy : ch.position.y > pv.position.y
    · simp only [Option.map_some', hy, if_true]
      exact ⟨_, rfl, by simp, rfl, rfl, rfl, rfl, rfl⟩
    · simp only [Option.map_some', hy, if_false]
      exact ⟨_, rfl, rfl, rfl, rfl, rfl, rfl, rfl⟩
  · rw [if_neg ha]
    exact ⟨_, rfl, rfl, rfl, rfl, rfl, rfl, rfl⟩

/-- What the statements need of the state after the last iteration. -/
theorem SpanInv_tail (B : Prop) (t : Text) (pv ch : Character) (σ : EmitState)
    (spans : List Span) (cur : List Character) (f : Prop) [Decidable f] (isLast : Bool)
    (h : SpanInv B t σ spans cur) (hB : ch.bold = true → B)
    (h1 : isLast = false → ¬ f)
    (h2 : isLast = true → ¬ f → cur.flatMap payloadOf = []) :
    ∃ (σ1 : EmitState) (spans1 : List Span) (cur1 : List Character),
      (if f then writeToFile t (some pv) ch σ else some σ) = some σ1 ∧
      spans1.flatMap (fun s => s.units) ++ cur1 = spans.flatMap (fun s => s.units) ++ cur ∧
      (isLast = false → SpanInv B t σ1 spans1 cur1) ∧
      (isLast = true →
        σ1.done.flatten ++ σ1.page = spans1.flatMap (Span.draw t) ∧
        cur1.flatMap payloadOf = [] ∧
        (∀ s ∈ spans1, s.bold = true → B) ∧ (∀ s ∈ spans1, s.units ≠ [])) := by
  by_cases hf : f
  · rw [if_pos hf]
    obtain ⟨σ1, spans1, e1, hc, hu, _, _, _, _, _, hsb, hsu⟩ :=
      SpanInv_flush B t pv ch σ spans cur h hB
    refine ⟨σ1, spans1, [], e1, by rw [hu, List.append_nil], ?_, ?_⟩
    · intro hl
      exact absurd hf (h1 hl)
    · intro _
      exact ⟨hc, rfl, hsb, hsu⟩
  · rw [if_neg hf]
    refine ⟨σ, spans, cur, rfl, rfl, fun _ => h, ?_⟩
    intro hl
    exact ⟨h.cmds, h2 hl hf, h.spanBold, h.spanUnits⟩

theorem emitUnit_spans (B : Prop) (t : Text) (pv ch : Character) (isLast : Bool)
    (σ : EmitState) (spans : List Span) (cur : List Character)
    (h : SpanInv B t σ spans cur) (hB : ch.bold = true → B) :
    ∃ (σ1 : EmitState) (spans1 : List Span) (cur1 : List Character),
      emitUnit t (some pv) ch isLast σ = some σ1 ∧
      spans1.flatMap (fun s => s.units) ++ cur1 =
        spans.flatMap (fun s => s.units) ++ cur ++ (if visible ch then [ch] else []) ∧
      (isLast = false → SpanInv B t σ1 spans1 cur1) ∧
      (isLast = true →
        σ1.done.flatten ++ σ1.page = spans1.flatMap (Span.draw t) ∧
        cur1.flatMap payloadOf = [] ∧
        (∀ s ∈ spans1, s.bold = true → B) ∧ (∀ s ∈ spans1, s.units ≠ [])) := by
  unfold emitUnit
  by_cases hw : (lineOverflow t σ.xInc ch || isEOL ch) = true
  · rw [if_pos hw]
    obtain ⟨σ1, spans1, e1, hc1, hu1, hb1, hl1, hp1, _, hbo1, hsb1, hsu1⟩ :=
      SpanInv_flush B t pv ch σ spans cur h hB
    obtain ⟨σ2, e2, hc2, hb2, hl2, hp2, hbo2, _⟩ := pageSplit_prev_some t pv ch σ1
    have h3 := SpanInv_fresh_append B t ch σ2 spans1 (t.m_range.x + ch.length)
      (by rw [hc2, hc1]) (by rw [hb2, hb1]) (by rw [hl2, hl1]) (by rw [hp2, hp1])
      (by rw [hbo2]; exact hbo1) hsb1 hsu1
    obtain ⟨σ4, spans4, cur4, e4, hu4, hA, hL⟩ := SpanInv_tail B t pv ch _ spans1 _
      (isLast = true) isLast h3 hB (by intro hl; simp [hl]) (by intro hl hn; exact absurd hl hn)
    refine ⟨σ4, spans4, cur4, ?_, ?_, hA, hL⟩
    · rw [e1, Option.some_bind, e2, Option.some_bind]
      exact e4
    · rw [hu4, hu1]
  · rw [if_neg hw]
    have key : ∃ (σ3 : EmitState) (spans3 : List Span) (cur3 : List Character),
        ((if σ.preBold ≠ ch.bold then writeToFile t (some pv) ch σ else some σ).bind fun σ1 =>
          (if σ1.preLang ≠ ch.lang then writeToFile t (some pv) ch σ1 else some σ1).bind
            fun σ2 => some (BufferAppend ch σ2)) = some σ3 ∧
        SpanInv B t σ3 spans3 cur3 ∧
        spans3.flatMap (fun s => s.units) ++ cur3 =
          spans.flatMap (fun s => s.units) ++ cur ++ (if visible ch then [ch] else []) := by
      by_cases hbd : σ.preBold ≠ ch.bold
      · rw [if_pos hbd]
        obtain ⟨σ1, spans1, e1, hc1, hu1, hb1, hl1, hp1, _, hbo1, hsb1, hsu1⟩ :=
          SpanInv_flush B t pv ch σ spans cur h hB
        rw [e1, Option.some_bind, if_neg (by simp [hl1]), Option.some_bind]
        exact ⟨_, spans1, _, rfl,
          SpanInv_fresh_append B t ch σ1 spans1 _ hc1 hb1 hl1 hp1 hbo1 hsb1 hsu1, by rw [hu1]⟩
      · rw [if_neg hbd, Option.some_bind]
        by_cases hlg : σ.preLang ≠ ch.lang
        · rw [if_pos hlg]
          obtain ⟨σ1, spans1, e1, hc1, hu1, hb1, hl1, hp1, _, hbo1, hsb1, hsu1⟩ :=
            SpanInv_flush B t pv ch σ spans cur h hB
          rw [e1, Option.some_bind]
          exact ⟨_, spans1, _, rfl,
            SpanInv_fresh_append B t ch σ1 spans1 _ hc1 hb1 hl1 hp1 hbo1 hsb1 hsu1, by rw [hu1]⟩
        · rw [if_neg hlg, Option.some_bind]
          exact ⟨_, spans, _, rfl, SpanInv_append B t ch σ spans cur h (not_not.mp hlg),
            by rw [List.append_assoc]⟩
    obtain ⟨σ3, spans3, cur3, e3, h3, hu3⟩ := key
    obtain ⟨σ4, spans4, cur4, e4, hu4, hA, hL⟩ := SpanInv_tail B t pv ch σ3 spans3 cur3
      (isLast = true ∧ σ3.buffer ≠ []) isLast h3 hB (by intro hl; simp [hl])
      (by
        intro hl hn
        rw [← h3.buf]
        by_contra hne
        exact hn ⟨hl, hne⟩)
    refine ⟨{ σ4 with xInc := σ4.xInc + ch.length }, spans4, cur4, ?_, by rw [hu4, hu3],
      fun hl => SpanInv_xInc B t σ4 spans4 cur4 _ (hA hl), hL⟩
    have hassoc : ((if σ.preBold ≠ ch.bold then writeToFile t (some pv) ch σ else some σ).bind
        fun σ1 =>
          (if σ1.preLang ≠ ch.lang then writeToFile t (some pv) ch σ1 else some σ1).bind
            fun σ2 =>
              (if isLast = true ∧ (BufferAppend ch σ2).buffer ≠ [] then
                  writeToFile t (some pv) ch (BufferAppend ch σ2)
                else some (BufferAppend ch σ2)).map
                fun σ4 => { σ4 with xInc := σ4.xInc + ch.length }) =
        ((if σ.preBold ≠ ch.bold then writeToFile t (some pv) ch σ else some σ).bind fun σ1 =>
          (if σ1.preLang ≠ ch.lang then writeToFile t (some pv) ch σ1 else some σ1).bind
            fun σ2 => some (BufferAppend ch σ2)).bind
          fun σ3 =>
            (if isLast = true ∧ σ3.buffer ≠ [] then writeToFile t (some pv) ch σ3
              else some σ3).map fun σ4 => { σ4 with xInc := σ4.xInc + ch.length } := by
      simp only [Option.bind_assoc, Option.some_bind]
    rw [hassoc, e3, Option.some_bind, e4]
    rfl

theorem filter_visible_cons (ch : Character) (rest : List Character) :
    (ch :: rest).filter visible = (if visible ch then [ch] else []) ++ rest.filter visible := by
  by_cases hv : visible ch = true
  · simp [List.filter_cons, hv]
  · simp [List.filter_cons, hv]

theorem emitLoop_spans (B : Prop) (t : Text) (rest : List Character) (hrest : rest ≠ [])
    (pv : Character) (σ : EmitState) (spans : List Span) (cur : List Character)
    (h : SpanInv B t σ spans cur) (hB : ∀ ch ∈ rest, ch.bold = true → B) :
    ∃ (σf : EmitState) (spansf : List Span) (left : List Character),
      emitLoop t (some pv) rest σ = some σf ∧
      σf.done.flatten ++ σf.page = spansf.flatMap (Span.draw t) ∧
      spansf.flatMap (fun s => s.units) ++ left =
        spans.flatMap (fun s => s.units) ++ cur ++ rest.filter visible ∧
      left.flatMap payloadOf = [] ∧
      (∀ s ∈ spansf, s.bold = true → B) ∧ (∀ s ∈ spansf, s.units ≠ []) := by
  induction rest generalizing pv σ spans cur with
  | nil => exact absurd rfl hrest
  | cons ch rest ih =>
    obtain ⟨σ1, spans1, cur1, e1, hu1, hA, hL⟩ := emitUnit_spans B t pv ch rest.isEmpty σ
      spans cur h (hB ch (List.mem_cons_self _ _))
    rw [emitLoop_cons, e1, Option.some_bind]
    cases rest with
    | nil =>
      obtain ⟨hc, hp, hsb, hsu⟩ := hL rfl
      refine ⟨σ1, spans1, cur1, rfl, hc, ?_, hp, hsb, hsu⟩
      rw [hu1, filter_visible_cons]
      simp
    | cons ch2 rest2 =>
      obtain ⟨σf, spansf, left, ef, hcf, huf, hpf, hsbf, hsuf⟩ :=
        ih (List.cons_ne_nil _ _) ch σ1 spans1 cur1 (hA rfl)
          (fun c hc => hB c (List.mem_cons_of_mem _ hc))
      refine ⟨σf, spansf, left, ef, hcf, ?_, hpf, hsbf, hsuf⟩
      simp only [huf, hu1, filter_visible_cons ch, List.append_assoc]

theorem payloadOf_ne_nil_visible (ch : Character) (h : payloadOf ch ≠ []) : visible ch = true := by
  by_contra hv
  exact h (payloadOf_of_not_visible ch (by simpa using hv))

theorem GetContent_spans (B : Prop) (t : Text) (ch0 : Character) (rest : List Character)
    (htxt : t.m_text = ch0 :: rest)
    (hfirst : (lineOverflow t t.m_range.x ch0 || isEOL ch0) = false)
    (hB : ∀ ch ∈ t.m_text, ch.bold = true → B) :
    (rest ≠ [] → ∃ blocks, t.GetContent = some blocks) ∧
    ∀ blocks, t.GetContent = some blocks →
      ∃ (spans : List Span) (left : List Character),
        blocks.flatten = spans.flatMap (Span.draw t) ∧
        spans.flatMap (fun s => s.units) ++ left = t.m_text.filter visible ∧
        left.flatMap payloadOf = [] ∧
        (∀ s ∈ spans, s.bold = true → B) ∧ (∀ s ∈ spans, s.units ≠ []) := by
  have hB0 : ch0.bold = true → B := hB ch0 (by rw [htxt]; exact List.mem_cons_self _ _)
  have hfresh : ∀ x, SpanInv B t { BufferAppend ch0 (emitStart t ch0) with xInc := x } []
      (if visible ch0 then [ch0] else []) :=
    fun x => SpanInv_fresh_append B t ch0 (emitStart t ch0) [] x rfl rfl rfl rfl hB0
      (fun s hs => absurd hs (List.not_mem_nil s)) (fun s hs => absurd hs (List.not_mem_nil s))
  have hG : t.GetContent =
      ((emitUnit t none ch0 rest.isEmpty (emitStart t ch0)).bind fun σ1 =>
        emitLoop t (some ch0) rest σ1).map fun σ => σ.done ++ [σ.page] := by
    unfold Text.GetContent
    rw [htxt]
    simp only [emitLoop_cons]
  cases rest with
  | nil =>
    refine ⟨fun hne => absurd rfl hne, ?_⟩
    intro blocks hb
    rw [hG] at hb
    have hstep : emitUnit t none ch0 true (emitStart t ch0) =
        (if payloadOf ch0 ≠ [] then none
          else some { BufferAppend ch0 (emitStart t ch0) with
            xInc := t.m_range.x + ch0.length }) := by
      unfold emitUnit
      have hx : (emitStart t ch0).xInc = t.m_range.x := rfl
      rw [hx, hfirst]
      simp only [Bool.false_eq_true, if_false, emitStart, ne_eq, not_true_eq_false,
        Option.some_bind, true_and, BufferAppend_eq, List.nil_append]
      by_cases hp : payloadOf ch0 = []
      · simp [hp]
      · have hv := payloadOf_ne_nil_visible ch0 hp
        have hns : ch0.lang ≠ LANGUAGE.SPACING := by
          intro hs
          simp [visible, hs] at hv
        simp [hp, writeToFile, hns]
    simp only [List.isEmpty_nil, hstep] at hb
    by_cases hp : payloadOf ch0 = []
    · simp only [hp, ne_eq, not_true_eq_false, if_false, Option.some_bind, emitLoop,
        Option.map_some', Option.some.injEq] at hb
      subst hb
      refine ⟨[], if visible ch0 then [ch0] else [], ?_, ?_, ?_, ?_, ?_⟩
      · simp [BufferAppend_eq, emitStart]
      · rw [htxt, filter_visible_cons]; simp
      · by_cases hv : visible ch0 = true
        · simp [hv, hp]
        · simp [hv]
      · intro s hs; exact absurd hs (List.not_mem_nil s)
      · intro s hs; exact absurd hs (List.not_mem_nil s)
    · simp [hp] at hb
  | cons ch1 rest1 =>
    have hstep : emitUnit t none ch0 false (emitStart t ch0) =
        some { BufferAppend ch0 (emitStart t ch0) with
          xInc := (BufferAppend ch0 (emitStart t ch0)).xInc + ch0.length } :=
      emitUnit_first t ch0 (emitStart t ch0) hfirst rfl rfl
    obtain ⟨σf, spansf, left, ef, hcf, huf, hpf, hsbf, hsuf⟩ :=
      emitLoop_spans B t (ch1 :: rest1) (List.cons_ne_nil _ _) ch0 _ [] _ (hfresh _)
        (fun c hc => hB c (by rw [htxt]; exact List.mem_cons_of_mem _ hc))
    have hval : t.GetContent = some (σf.done ++ [σf.page]) := by
      rw [hG, List.isEmpty_cons, hstep, Option.some_bind, ef]
      rfl
    refine ⟨fun _ => ⟨_, hval⟩, ?_⟩
    intro blocks hb
    rw [hval] at hb
    simp only [Option.some.injEq] at hb
    subst hb
    refine ⟨spansf, left, ?_, ?_, hpf, hsbf, hsuf⟩
    · simp [hcf]
    · rw [huf, htxt, filter_visible_cons ch0]
      simp

theorem drawContent_head (font : String) (bufferFontSize charItvl : ℚ) (prePos : Vector2)
    (preBold : Bool) (content : List Char) :
    ∃ group, drawContent font bufferFontSize charItvl prePos preBold content =
      ⟨font, bufferFontSize, prePos.x, prePos.y, charItvl, content⟩ :: group := by
  cases preBold with
  | false => exact ⟨[], rfl⟩
  | true => exact ⟨_, rfl⟩

theorem CalcLayout_of_alignRange (t : Text) (r : Vector2) (h : alignRange t = some r) :
    t.CalcLayout = some (textHandling (t.withColumn r)) := by
  simp only [Text.CalcLayout, h, Option.map_some']

/-- C16: for a run laid out by `CalcLayout` whose first unit is not wrapped,
`GetContent` returns whenever the run has at least two units, and whatever it
returns is, in order across the page blocks, the sequence of the command
groups of spans such that: the units of the spans, in order, are visible
(CJK or Latin) units of the run in run order, a spacing, space or control unit
belongs to no span, and the first command of each group, the canonical one, is
anchored at the position `CalcLayout` assigned to the first unit of its span. -/
theorem GetContent_commands_anchored (t t1 : Text) (ch0 : Character) (rest : List Character)
    (_hc : t.CalcLayout = some t1)
    (htxt : t1.m_text = ch0 :: rest)
    (hfirst : (lineOverflow t1 t1.m_range.x ch0 || isEOL ch0) = false) :
    (rest ≠ [] → ∃ blocks, t1.GetContent = some blocks) ∧
    ∀ blocks, t1.GetContent = some blocks →
      ∃ (spans : List Span) (left : List Character),
        blocks.flatten = spans.flatMap (Span.draw t1) ∧
        spans.flatMap (fun s => s.units) ++ left = t1.m_text.filter visible ∧
        ∀ s ∈ spans, ∃ first more c0 group,
          s.units = first :: more ∧ Span.draw t1 s = c0 :: group ∧
          c0.x = first.position.x ∧ c0.y = first.position.y ∧
          c0.content = delimit first.lang (hanndleSpecialChar (s.units.flatMap payloadOf)) := by
  obtain ⟨hex, hall⟩ := GetContent_spans True t1 ch0 rest htxt hfirst (fun _ _ _ => trivial)
  refine ⟨hex, ?_⟩
  intro blocks hb
  obtain ⟨spans, left, h1, h2, _, _, h5⟩ := hall blocks hb
  refine ⟨spans, left, h1, h2, ?_⟩
  intro s hs
  obtain ⟨first, more, hfm⟩ := List.exists_cons_of_ne_nil (h5 s hs)
  obtain ⟨group, hg⟩ := drawContent_head (fontOf first.lang) s.fontSize
    ((t1.m_charItvlRatio - 1) * s.fontSize) first.position s.bold
    (delimit first.lang (hanndleSpecialChar (s.units.flatMap payloadOf)))
  have hd : Span.draw t1 s = drawContent (fontOf first.lang) s.fontSize
      ((t1.m_charItvlRatio - 1) * s.fontSize) first.position s.bold
      (delimit first.lang (hanndleSpecialChar (s.units.flatMap payloadOf))) := by
    simp only [Span.draw, hfm]
  exact ⟨first, more, _, group, hfm, hd.trans hg, rfl, rfl, rfl⟩

/-- C16 (witness): the anchoring theorem at the bold run `a`, space, U+4E2D,
`b`: the three visible units form three spans, the space none, and the canonical
command of each group of five sits at the position of `a`, of the CJK unit and
of `b`. -/
theorem GetContent_commands_anchored_witness :
    boldMixed.CalcLayout = some boldMixedLaid ∧
    boldMixedLaid.m_text = placed 97 true ⟨100, 900⟩ ::
      [placed 32 true ⟨1063 / 10, 900⟩, placed 0x4E2D true ⟨1099 / 10, 900⟩,
        placed 98 true ⟨1219 / 10, 900⟩] ∧
    (lineOverflow boldMixedLaid boldMixedLaid.m_range.x (placed 97 true ⟨100, 900⟩)
      || isEOL (placed 97 true ⟨100, 900⟩)) = false ∧
    ((([placed 32 true ⟨1063 / 10, 900⟩, placed 0x4E2D true ⟨1099 / 10, 900⟩,
        placed 98 true ⟨1219 / 10, 900⟩] : List Character) ≠ [] →
        ∃ blocks, boldMixedLaid.GetContent = some blocks) ∧
      ∀ blocks, boldMixedLaid.GetContent = some blocks →
        ∃ (spans : List Span) (left : List Character),
          blocks.flatten = spans.flatMap (Span.draw boldMixedLaid) ∧
          spans.flatMap (fun s => s.units) ++ left = boldMixedLaid.m_text.filter visible ∧
          ∀ s ∈ spans, ∃ first more c0 group,
            s.units = first :: more ∧ Span.draw boldMixedLaid s = c0 :: group ∧
            c0.x = first.position.x ∧ c0.y = first.position.y ∧
            c0.content =
              delimit first.lang (hanndleSpecialChar (s.units.flatMap payloadOf))) ∧
    boldMixedLaid.GetContent.map
        (fun blocks => blocks.flatten.map fun c => (c.x, c.y, c.content)) =
      some [(100, 900, ['(', 'a', ')']), (2003 / 20, 900, ['(', 'a', ')']),
        (1997 / 20, 900, ['(', 'a', ')']), (100, 18003 / 20, ['(', 'a', ')']),
        (100, 17997 / 20, ['(', 'a', ')']),
        (1099 / 10, 900, ['<', '4', 'e', '2', 'd', '>']),
        (2201 / 20, 900, ['<', '4', 'e', '2', 'd', '>']),
        (439 / 4, 900, ['<', '4', 'e', '2', 'd', '>']),
        (1099 / 10, 18003 / 20, ['<', '4', 'e', '2', 'd', '>']),
        (1099 / 10, 17997 / 20, ['<', '4', 'e', '2', 'd', '>']),
        (1219 / 10, 900, ['(', 'b', ')']), (2441 / 20, 900, ['(', 'b', ')']),
        (487 / 4, 900, ['(', 'b', ')']), (1219 / 10, 18003 / 20, ['(', 'b', ')']),
        (1219 / 10, 17997 / 20, ['(', 'b', ')'])] :=
  ⟨CalcLayout_of_alignRange boldMixed ⟨100, 657⟩ (by decide!), by decide!, by decide!,
    GetContent_commands_anchored boldMixed boldMixedLaid (placed 97 true ⟨100, 900⟩)
      [placed 32 true ⟨1063 / 10, 900⟩, placed 0x4E2D true ⟨1099 / 10, 900⟩,
        placed 98 true ⟨1219 / 10, 900⟩]
      (CalcLayout_of_alignRange boldMixed ⟨100, 657⟩ (by decide!)) (by decide!) (by decide!),
    by decide!⟩

/-! ## C17: the payloads of the commands -/

theorem flatMap_payloadOf_filter (xs : List Character) :
    (xs.filter visible).flatMap payloadOf = xs.flatMap payloadOf := by
  induction xs with
  | nil => rfl
  | cons x xs ih =>
    rw [filter_visible_cons, List.flatMap_append, ih, List.flatMap_cons]
    by_cases hv : visible x = true
    · simp [hv]
    · have hv' : visible x = false := by simpa using hv
      simp [hv', payloadOf_of_not_visible x hv']

theorem removeBeforeFirst_insertBeforeFirst (c : Char) (hc : c ≠ '\\') (l : List Char) :
    removeBeforeFirst c (insertBeforeFirst c l) = l := by
  induction l with
  | nil => rfl
  | cons x xs ih =>
    by_cases hx : x = c
    · simp only [insertBeforeFirst, hx, if_true, removeBeforeFirst]
      rw [if_neg (fun h => hc h.symm)]
    · cases xs with
      | nil => simp only [insertBeforeFirst, hx, if_false, removeBeforeFirst]
      | cons z zs =>
        by_cases hz : z = c
        · simp only [insertBeforeFirst, hx, hz, if_true, if_false, removeBeforeFirst]
          rw [if_neg (fun h => hc h.symm), if_neg (fun h => hc h.symm)]
        · have e : insertBeforeFirst c (z :: zs) = z :: insertBeforeFirst c zs := by
            simp only [insertBeforeFirst, hz, if_false]
          rw [show insertBeforeFirst c (x :: z :: zs) = x :: insertBeforeFirst c (z :: zs) by
            simp only [insertBeforeFirst, hx, if_false]]
          rw [e] at ih ⊢
          simp only [removeBeforeFirst, hx, hz, if_false]
          rw [ih]

theorem unescape_hanndleSpecialChar (buffer : List Char) :
    unescape (hanndleSpecialChar buffer) = buffer := by
  unfold unescape hanndleSpecialChar
  rw [removeBeforeFirst_insertBeforeFirst ')' (by decide),
    removeBeforeFirst_insertBeforeFirst '(' (by decide)]

theorem payload_delimit (lang : LANGUAGE) (buffer : List Char)
    (h : lang = LANGUAGE.CHINESE ∨ lang = LANGUAGE.ENGLISH) :
    unescape (delimit lang (hanndleSpecialChar buffer)).tail.dropLast = buffer := by
  rcases h with h | h <;>
    simp [delimit, h, unescape_hanndleSpecialChar]

theorem delimit_visible (lang : LANGUAGE) (buffer : List Char)
    (h : lang = LANGUAGE.CHINESE ∨ lang = LANGUAGE.ENGLISH) :
    delimit lang buffer = '<' :: buffer ++ ['>'] ∨ delimit lang buffer = '(' :: buffer ++ [')'] := by
  rcases h with h | h <;> simp [delimit, h]

theorem GetContent_single_hidden (t : Text) (ch : Character) (h : t.m_text = [ch])
    (hw : (lineOverflow t t.m_range.x ch || isEOL ch) = false) (hv : visible ch = false) :
    t.GetContent = some [[]] := by
  unfold Text.GetContent
  rw [h]
  have hp : payloadOf ch = [] := payloadOf_of_not_visible ch hv
  simp [emitLoop, emitStart, emitUnit, hw, BufferAppend_eq, hp]

/-- C17: for a run laid out by `CalcLayout`, with no bold unit, whose first
unit is not wrapped, `GetContent` returns whenever the run has at least two
units or its only unit is not visible, and whatever it returns satisfies: the
payloads of the commands (the content of a command without its two delimiters
and without the escape markers), concatenated in order across the page
blocks, are the concatenation, in run order, of the payloads of the units of
the run (the character of a Latin unit, the hex string of a CJK unit); and the
content of every command is its payload, escaped, between angle brackets or
between parentheses. -/
theorem GetContent_payloads_preserved (t t1 : Text) (ch0 : Character) (rest : List Character)
    (_hc : t.CalcLayout = some t1)
    (htxt : t1.m_text = ch0 :: rest)
    (hfirst : (lineOverflow t1 t1.m_range.x ch0 || isEOL ch0) = false)
    (hnb : ∀ u ∈ t1.m_text, u.bold = false) :
    ((rest ≠ [] ∨ visible ch0 = false) → ∃ blocks, t1.GetContent = some blocks) ∧
    ∀ blocks, t1.GetContent = some blocks →
      blocks.flatten.flatMap Command.payload = t1.m_text.flatMap payloadOf ∧
      ∀ c ∈ blocks.flatten,
        c.content = '<' :: hanndleSpecialChar c.payload ++ ['>'] ∨
        c.content = '(' :: hanndleSpecialChar c.payload ++ [')'] := by
  obtain ⟨hex, hall⟩ := GetContent_spans False t1 ch0 rest htxt hfirst
    (fun u hu hb => by rw [hnb u hu] at hb; exact Bool.false_ne_true hb)
  refine ⟨?_, ?_⟩
  · intro h
    by_cases hr : rest = []
    · rcases h with h | h
      · exact absurd hr h
      · exact ⟨_, GetContent_single_hidden t1 ch0 (by rw [htxt, hr]) hfirst h⟩
    · exact hex hr
  intro blocks hb
  obtain ⟨spans, left, h1, h2, h3, h4, h5⟩ := hall blocks hb
  have hvis : ∀ s ∈ spans, ∀ u ∈ s.units, u.lang = LANGUAGE.CHINESE ∨ u.lang = LANGUAGE.ENGLISH := by
    intro s hs u hu
    have hmem : u ∈ t1.m_text.filter visible := by
      rw [← h2]
      exact List.mem_append_left _ (List.mem_flatMap.mpr ⟨s, hs, hu⟩)
    have := (List.mem_filter.mp hmem).2
    simpa [visible] using this
  have key : ∀ sp : List Span, (∀ s ∈ sp, s.bold = true → False) → (∀ s ∈ sp, s.units ≠ []) →
      (∀ s ∈ sp, ∀ u ∈ s.units, u.lang = LANGUAGE.CHINESE ∨ u.lang = LANGUAGE.ENGLISH) →
      (sp.flatMap (Span.draw t1)).flatMap Command.payload =
          (sp.flatMap fun s => s.units).flatMap payloadOf ∧
      ∀ c ∈ sp.flatMap (Span.draw t1),
        c.content = '<' :: hanndleSpecialChar c.payload ++ ['>'] ∨
        c.content = '(' :: hanndleSpecialChar c.payload ++ [')'] := by
    intro sp
    induction sp with
    | nil => intro _ _ _; exact ⟨rfl, fun c hc => by simp at hc⟩
    | cons s sp ih =>
      intro hb hu hv
      obtain ⟨ih1, ih2⟩ := ih (fun x hx => hb x (List.mem_cons_of_mem _ hx))
        (fun x hx => hu x (List.mem_cons_of_mem _ hx))
        (fun x hx => hv x (List.mem_cons_of_mem _ hx))
      obtain ⟨first, more, hfm⟩ := List.exists_cons_of_ne_nil (hu s (List.mem_cons_self _ _))
      have hsb : s.bold = false := by
        cases hbb : s.bold with
        | false => rfl
        | true => exact absurd hbb (fun h => hb s (List.mem_cons_self _ _) h)
      have hfv := hv s (List.mem_cons_self _ _) first (by rw [hfm]; exact List.mem_cons_self _ _)
      have hd : Span.draw t1 s =
          [⟨fontOf first.lang, s.fontSize, first.position.x, first.position.y,
            (t1.m_charItvlRatio - 1) * s.fontSize,
            delimit first.lang (hanndleSpecialChar (s.units.flatMap payloadOf))⟩] := by
        simp only [Span.draw, hfm, drawContent, hsb, Bool.false_eq_true, if_false]
      have hp : Command.payload ⟨fontOf first.lang, s.fontSize, first.position.x,
          first.position.y, (t1.m_charItvlRatio - 1) * s.fontSize,
          delimit first.lang (hanndleSpecialChar (s.units.flatMap payloadOf))⟩
          = s.units.flatMap payloadOf := payload_delimit first.lang _ hfv
      refine ⟨?_, ?_⟩
      · simp only [List.flatMap_cons, List.flatMap_append, hd, List.flatMap_nil,
          List.append_nil, hp, ih1]
      · intro c hc
        rw [List.flatMap_cons, List.mem_append] at hc
        rcases hc with hc | hc
        · rw [hd, List.mem_singleton] at hc
          rw [hc, hp]
          exact delimit_visible first.lang _ hfv
        · exact ih2 c hc
  obtain ⟨k1, k2⟩ := key spans h4 h5 hvis
  refine ⟨?_, by rw [h1]; exact k2⟩
  rw [h1, k1, ← flatMap_payloadOf_filter t1.m_text, ← h2, List.flatMap_append, h3,
    List.append_nil]

/-- C17 (witness): the payload theorem at the run `(a)(b)`: one command, whose
content is the payload `(a)(b)` with the first `(` and the first `)` escaped,
between the delimiters of a Latin span, and whose payload is `(a)(b)`. -/
theorem GetContent_payloads_preserved_witness :
    parenRun.CalcLayout = some parenRunLaid ∧
    parenRunLaid.m_text = placed 40 false ⟨100, 900⟩ ::
      [placed 97 false ⟨1063 / 10, 900⟩, placed 41 false ⟨563 / 5, 900⟩,
        placed 40 false ⟨1189 / 10, 900⟩, placed 98 false ⟨626 / 5, 900⟩,
        placed 41 false ⟨263 / 2, 900⟩] ∧
    (lineOverflow parenRunLaid parenRunLaid.m_range.x (placed 40 false ⟨100, 900⟩)
      || isEOL (placed 40 false ⟨100, 900⟩)) = false ∧
    (∀ u ∈ parenRunLaid.m_text, u.bold = false) ∧
    (((([placed 97 false ⟨1063 / 10, 900⟩, placed 41 false ⟨563 / 5, 900⟩,
        placed 40 false ⟨1189 / 10, 900⟩, placed 98 false ⟨626 / 5, 900⟩,
        placed 41 false ⟨263 / 2, 900⟩] : List Character) ≠ [] ∨
        visible (placed 40 false ⟨100, 900⟩) = false) →
        ∃ blocks, parenRunLaid.GetContent = some blocks) ∧
      ∀ blocks, parenRunLaid.GetContent = some blocks →
        blocks.flatten.flatMap Command.payload = parenRunLaid.m_text.flatMap payloadOf ∧
        ∀ c ∈ blocks.flatten,
          c.content = '<' :: hanndleSpecialChar c.payload ++ ['>'] ∨
          c.content = '(' :: hanndleSpecialChar c.payload ++ [')']) ∧
    parenRunLaid.m_text.flatMap payloadOf = ['(', 'a', ')', '(', 'b', ')'] ∧
    parenRunLaid.GetContent.map (fun blocks => blocks.flatten.map fun c => c.content) =
      some [['(', '\\', '(', 'a', '\\', ')', '(', 'b', ')', ')']] ∧
    parenRunLaid.GetContent.map (fun blocks => blocks.flatten.map Command.payload) =
      some [['(', 'a', ')', '(', 'b', ')']] :=
  ⟨CalcLayout_of_alignRange parenRun ⟨100, 657⟩ (by decide!), by decide!, by decide!,
    by decide!,
    GetContent_payloads_preserved parenRun parenRunLaid (placed 40 false ⟨100, 900⟩)
      [placed 97 false ⟨1063 / 10, 900⟩, placed 41 false ⟨563 / 5, 900⟩,
        placed 40 false ⟨1189 / 10, 900⟩, placed 98 false ⟨626 / 5, 900⟩,
        placed 41 false ⟨263 / 2, 900⟩]
      (CalcLayout_of_alignRange parenRun ⟨100, 657⟩ (by decide!)) (by decide!) (by decide!)
      (by decide!),
    by decide!, by decide!, by decide!⟩

/-! ## C18: reads of the unit before the first -/

/-- C18 (the code at the failing inputs): laid out by `CalcLayout`, the run of
the single unit `a` and the run that starts with a newline both make
`GetContent` read `m_text[i - 1]` with `i = 0`. -/
theorem GetContent_reads_before_first :
    (singleLetter.CalcLayout.map fun t => t.m_text.length) = some 1 ∧
    singleLetter.CalcLayout.bind Text.GetContent = none ∧
    (newlineFirst.CalcLayout.map fun t => t.m_text.length) = some 2 ∧
    newlineFirst.CalcLayout.bind Text.GetContent = none := by
  decide!

/-! ## C19: the wrap flag of `GetContent` and the line breaks of `CalcLayout` -/

theorem pageSplit_xInc (t : Text) (prev : Option Character) (ch : Character)
    (σ σ1 : EmitState) (h : pageSplit t prev ch σ = some σ1) : σ1.xInc = σ.xInc := by
  unfold pageSplit at h
  by_cases ha : t.m_autoNextPage = true
  · rw [if_pos ha] at h
    cases prev with
    | none => simp at h
    | some pv =>
      simp only [Option.map_some'] at h
      injection h with h
      rw [← h]
      split <;> rfl
  · rw [if_neg ha] at h
    injection h with h
    rw [← h]

theorem layoutUnit_relayout (t t1 : Text) (hr : t1.m_range = t.m_range)
    (ha : t1.m_autoNextPage = t.m_autoNextPage) (hf : t1.m_fontSize = t.m_fontSize)
    (hl : t1.m_lineItvl = t.m_lineItvl) (cur c2 : Cursor) (ch : Character) :
    layoutUnit t1 cur (layoutUnit t c2 ch).2 = layoutUnit t cur ch := by
  simp only [layoutUnit, placeCursor, nextLine, lineOverflow, isEOL, hr, ha, hf, hl]

theorem layoutLoop_relayout (t t1 : Text) (hr : t1.m_range = t.m_range)
    (ha : t1.m_autoNextPage = t.m_autoNextPage) (hf : t1.m_fontSize = t.m_fontSize)
    (hl : t1.m_lineItvl = t.m_lineItvl) (cur c2 : Cursor) (xs : List Character) :
    layoutLoop t1 cur (layoutLoop t c2 xs).2 = layoutLoop t cur xs := by
  induction xs generalizing cur c2 with
  | nil => rfl
  | cons x xs ih =>
    simp only [layoutLoop, layoutUnit_relayout t t1 hr ha hf hl, ih]

theorem layoutLoop_map_advances (t : Text) (cur : Cursor) (xs : List Character) :
    (layoutLoop t cur xs).2.map (fun ch => (ch.length, ch.charLen)) =
      xs.map (fun ch => (ch.length, ch.charLen)) := by
  induction xs generalizing cur with
  | nil => rfl
  | cons x xs ih =>
    simp only [layoutLoop, List.map_cons, ih]
    rfl

theorem textHandling_relayout (t : Text) (r : Vector2) :
    textHandling ((textHandling (t.withColumn r)).withColumn r) = textHandling (t.withColumn r) := by
  have key : layoutLoop ((textHandling (t.withColumn r)).withColumn r)
        (startCursor ((textHandling (t.withColumn r)).withColumn r))
        ((textHandling (t.withColumn r)).withColumn r).m_text
      = layoutLoop (t.withColumn r) (startCursor (t.withColumn r)) (t.withColumn r).m_text :=
    layoutLoop_relayout (t.withColumn r) ((textHandling (t.withColumn r)).withColumn r)
      rfl rfl rfl rfl (startCursor (t.withColumn r)) (startCursor (t.withColumn r)) t.m_text
  show ({ (textHandling (t.withColumn r)).withColumn r with
      m_text := (layoutLoop ((textHandling (t.withColumn r)).withColumn r)
        (startCursor ((textHandling (t.withColumn r)).withColumn r))
        ((textHandling (t.withColumn r)).withColumn r).m_text).2,
      m_lineCount := (layoutLoop ((textHandling (t.withColumn r)).withColumn r)
        (startCursor ((textHandling (t.withColumn r)).withColumn r))
        ((textHandling (t.withColumn r)).withColumn r).m_text).1.lineCount } : Text) = _
  rw [key]
  rfl

theorem alignRange_relayout (t : Text) (r : Vector2) (hne : t.m_alignment ≠ ALIGNMENT.CENTER)
    (h : alignRange t = some r) : alignRange (textHandling (t.withColumn r)) = some r := by
  unfold alignRange at h ⊢
  have hal : (textHandling (t.withColumn r)).m_alignment = t.m_alignment := rfl
  rw [hal]
  cases hA : t.m_alignment with
  | DEFAULT => rw [hA] at h; exact h
  | LEFT => rw [hA] at h; exact h
  | CENTER => exact absurd hA hne
  | RIGHT =>
    rw [hA] at h
    simp only at h ⊢
    obtain ⟨back, hb, hr⟩ := Option.map_eq_some'.mp h
    have hlast := congrArg List.getLast?
      (layoutLoop_map_advances (t.withColumn r) (startCursor (t.withColumn r)) t.m_text)
    rw [List.getLast?_map, List.getLast?_map, hb] at hlast
    have hm : (textHandling (t.withColumn r)).m_text
        = (layoutLoop (t.withColumn r) (startCursor (t.withColumn r)) t.m_text).2 := rfl
    rw [hm]
    obtain ⟨b1, hb1, hb1e⟩ := Option.map_eq_some'.mp hlast
    rw [hb1, Option.map_some']
    simp only [Prod.mk.injEq] at hb1e
    have hy : (textHandling (t.withColumn r)).m_range.y = t.m_range.y := by
      rw [← hr]; rfl
    rw [hy, textHandling_GetLength, hb1e.1, hb1e.2, ← hr]
    rfl

/-- C20 (the code at the failing input, and the other modes): in the modes
DEFAULT, LEFT and RIGHT a second `CalcLayout` returns and leaves the run as the
first call left it; in the mode CENTER it does not: for `abc` centred in
[100, 300] the first call stores the column {190.55, 657} and places the first
unit at x = 190.55, the second call centres in that stored column and places
it at x = 414.325. -/
theorem CalcLayout_repeated :
    (∀ t t1 : Text, t.m_alignment ≠ ALIGNMENT.CENTER → t.CalcLayout = some t1 →
      t1.CalcLayout = some t1) ∧
    (centredRun.CalcLayout.map fun t => (t.m_range, t.m_lineCount,
        t.m_text.map fun ch => ch.position)) =
      some (⟨3811 / 20, 657⟩, 0, [⟨3811 / 20, 900⟩, ⟨3937 / 20, 900⟩, ⟨4063 / 20, 900⟩]) ∧
    ((centredRun.CalcLayout.bind Text.CalcLayout).map fun t => (t.m_range, t.m_lineCount,
        t.m_text.map fun ch => ch.position)) =
      some (⟨16573 / 40, 657⟩, 0, [⟨16573 / 40, 900⟩, ⟨3365 / 8, 900⟩, ⟨17077 / 40, 900⟩]) := by
  refine ⟨?_, by decide!, by decide!⟩
  intro t t1 hne hc
  unfold Text.CalcLayout at hc
  obtain ⟨r, hr, hc⟩ := Option.map_eq_some'.mp hc
  subst hc
  unfold Text.CalcLayout
  rw [alignRange_relayout t r hne hr, Option.map_some', textHandling_relayout]

/-- C20 (witness): the first part at the right-aligned run `ab`: a second
`CalcLayout` gives the run the first call gave. -/
theorem CalcLayout_repeated_witness :
    invertedRun.m_alignment ≠ ALIGNMENT.CENTER ∧
    invertedRun.CalcLayout = some invertedRunLaid ∧
    invertedRunLaid.CalcLayout = some invertedRunLaid :=
  ⟨by decide, CalcLayout_of_alignRange invertedRun ⟨437 / 5, 100⟩ (by decide!),
    CalcLayout_repeated.1 invertedRun invertedRunLaid (by decide)
      (CalcLayout_of_alignRange invertedRun ⟨437 / 5, 100⟩ (by decide!))⟩

end pdf
